import Mathlib

/-!
Verification of the fingerprint template codec and matcher of the
attendance server (`server-py/services/fingerprint_processor.py` and
`server-py/services/matcher.py`).

The Python code serializes a template dictionary with
`json.dumps(..., separators=(",", ":"))`, transports it through
`base64.b64encode(...).decode()`, and decodes with
`base64.b64decode(...)` followed by `json.loads(...)`.  We embed that
pipeline shallowly: JSON values are a Lean inductive (numbers are exact
decimals `m / 10^e`, which is the image of the Python floats and ints
appearing in templates), the compact renderer mirrors `json.dumps`, the
parser mirrors `json.loads` on the grammar the renderer emits (no
escapes, no exponents, no inter-token whitespace: the codec never
produces those), and base64 mirrors the standard alphabet including
`=`-padding and the discarding of non-alphabet characters.

The matcher (`matcher.py`) is embedded over `ℝ`: Python floats are
idealized as real numbers, `np.linalg.norm` as the real Euclidean norm.
-/

/-! ### JSON values -/

/-- A JSON value as produced by `json.loads`.  A number is the exact
decimal `m / 10 ^ e`; Python ints are `num m 0` and the floats occurring
in templates are finite decimals.  Object member order is insertion
order, as in Python dicts. -/
inductive Json where
  | null : Json
  | bool (b : Bool) : Json
  | num (m : ℤ) (e : ℕ) : Json
  | str (s : List Char) : Json
  | arr (xs : List Json) : Json
  | obj (kvs : List (List Char × Json)) : Json

/-- Opening brace character (ASCII 123). -/
def lbrace : Char := Char.ofNat 123

/-- Closing brace character (ASCII 125). -/
def rbrace : Char := Char.ofNat 125

/-- The decimal digit character for `d` (meaningful for `d < 10`). -/
def digitChar (d : ℕ) : Char := Char.ofNat (48 + d)

/-- Decimal digit characters of `n`, most significant first, as
produced by Python number formatting (no leading zeros; `0` is "0"). -/
def natChars (n : ℕ) : List Char :=
  if _h : n < 10 then [digitChar n]
  else natChars (n / 10) ++ [digitChar (n % 10)]
  decreasing_by exact Nat.div_lt_self (by omega) (by omega)

/-- Left-pad a digit string with zeros up to width `k`. -/
def padZeros (k : ℕ) (ds : List Char) : List Char :=
  List.replicate (k - ds.length) '0' ++ ds

/-- The decimal rendering of `m / 10 ^ e`: sign, integer digits and,
when `e > 0`, a point followed by exactly `e` fractional digits.  This
is how the finite decimals in a template print under `json.dumps`. -/
def decChars (m : ℤ) (e : ℕ) : List Char :=
  (if m < 0 then ['-'] else []) ++
    (if e = 0 then natChars m.natAbs
     else natChars (m.natAbs / 10 ^ e) ++ '.' :: padZeros e (natChars (m.natAbs % 10 ^ e)))

mutual

/-- Compact JSON rendering, mirroring
`json.dumps(..., separators=(",", ":"))`. -/
def dumps : Json → List Char
  | .null => ("null" : String).toList
  | .bool true => ("true" : String).toList
  | .bool false => ("false" : String).toList
  | .num m e => decChars m e
  | .str s => '"' :: s ++ ['"']
  | .arr xs => '[' :: dumpsItems xs ++ [']']
  | .obj kvs => lbrace :: dumpsMembers kvs ++ [rbrace]

/-- Comma-separated rendering of array elements. -/
def dumpsItems : List Json → List Char
  | [] => []
  | x :: xs => dumps x ++ dumpsItemsRest xs

/-- The tail of an element list: each further element preceded by a comma. -/
def dumpsItemsRest : List Json → List Char
  | [] => []
  | x :: xs => ',' :: dumps x ++ dumpsItemsRest xs

/-- Comma-separated rendering of object members (`"key":value`). -/
def dumpsMembers : List (List Char × Json) → List Char
  | [] => []
  | kv :: kvs => '"' :: kv.1 ++ '"' :: ':' :: dumps kv.2 ++ dumpsMembersRest kvs

/-- The tail of a member list: each further member preceded by a comma. -/
def dumpsMembersRest : List (List Char × Json) → List Char
  | [] => []
  | kv :: kvs => ',' :: '"' :: kv.1 ++ '"' :: ':' :: dumps kv.2 ++ dumpsMembersRest kvs

end

/-! ### The parser (`json.loads` on the emitted grammar) -/

/-- Decimal digit test. -/
def isDigitCh (c : Char) : Bool := 48 ≤ c.toNat && c.toNat ≤ 57

/-- Split off the maximal leading run of decimal digits. -/
def grabDigits : List Char → List Char × List Char
  | [] => ([], [])
  | c :: r =>
    if isDigitCh c then
      let p := grabDigits r
      (c :: p.1, p.2)
    else ([], c :: r)

/-- The natural number denoted by a digit string. -/
def digitsVal (ds : List Char) : ℕ :=
  ds.foldl (fun a c => a * 10 + (c.toNat - 48)) 0

/-- Parse an unsigned decimal number (integer digits, optionally a
point and fractional digits) into `(mantissa, places)`. -/
def parsePosNum (cs : List Char) : Option ((ℤ × ℕ) × List Char) :=
  let p1 := grabDigits cs
  if p1.1.isEmpty then none
  else
    match p1.2 with
    | '.' :: r2 =>
      let p2 := grabDigits r2
      if p2.1.isEmpty then none
      else
        some (((digitsVal p1.1 * 10 ^ p2.1.length + digitsVal p2.1 : ℕ), p2.1.length), p2.2)
    | r1 => some (((digitsVal p1.1 : ℕ), 0), r1)

/-- Parse a possibly signed decimal number. -/
def parseNumD (cs : List Char) : Option ((ℤ × ℕ) × List Char) :=
  match cs with
  | '-' :: r => (parsePosNum r).map (fun q => ((-q.1.1, q.1.2), q.2))
  | _ => parsePosNum cs

/-- Scan a string body up to the closing quote (the codec emits no
escape sequences). -/
def scanString : List Char → Option (List Char × List Char)
  | [] => none
  | c :: r =>
    if c = '"' then some ([], r)
    else (scanString r).map (fun p => (c :: p.1, p.2))

mutual

/-- Parse one JSON value; `fuel` decreases on every recursive call and
is instantiated with the input length at top level. -/
def parseJ : ℕ → List Char → Option (Json × List Char)
  | 0, _ => none
  | fuel + 1, cs =>
    match cs with
    | 'n' :: 'u' :: 'l' :: 'l' :: r => some (.null, r)
    | 't' :: 'r' :: 'u' :: 'e' :: r => some (.bool true, r)
    | 'f' :: 'a' :: 'l' :: 's' :: 'e' :: r => some (.bool false, r)
    | '"' :: r => (scanString r).map (fun p => (.str p.1, p.2))
    | c :: r =>
      if c = '[' then
        match r with
        | [] => none
        | c2 :: r2 =>
          if c2 = ']' then some (.arr [], r2)
          else (parseItems fuel (c2 :: r2)).map (fun p => (.arr p.1, p.2))
      else if c = lbrace then
        match r with
        | [] => none
        | c2 :: r2 =>
          if c2 = rbrace then some (.obj [], r2)
          else (parseMembers fuel (c2 :: r2)).map (fun p => (.obj p.1, p.2))
      else if c = '-' || isDigitCh c then
        (parseNumD (c :: r)).map (fun p => (.num p.1.1 p.1.2, p.2))
      else none
    | [] => none

/-- Parse one-or-more comma-separated array elements up to `]`. -/
def parseItems : ℕ → List Char → Option (List Json × List Char)
  | 0, _ => none
  | fuel + 1, cs =>
    match parseJ fuel cs with
    | none => none
    | some (v, r) =>
      match r with
      | [] => none
      | c :: r2 =>
        if c = ',' then (parseItems fuel r2).map (fun p => (v :: p.1, p.2))
        else if c = ']' then some ([v], r2)
        else none

/-- Parse one-or-more comma-separated object members up to the closing
brace. -/
def parseMembers : ℕ → List Char → Option (List (List Char × Json) × List Char)
  | 0, _ => none
  | fuel + 1, cs =>
    match cs with
    | [] => none
    | c :: r =>
      if c = '"' then
        match scanString r with
        | none => none
        | some (k, r1) =>
          match r1 with
          | [] => none
          | c1 :: r2 =>
            if c1 = ':' then
              match parseJ fuel r2 with
              | none => none
              | some (v, r3) =>
                match r3 with
                | [] => none
                | c2 :: r4 =>
                  if c2 = ',' then
                    (parseMembers fuel r4).map (fun p => ((k, v) :: p.1, p.2))
                  else if c2 = rbrace then some ([(k, v)], r4)
                  else none
            else none
      else none

end

/-- Parse a complete document, mirroring `json.loads`: the whole input
must be consumed. -/
def jsonLoads (cs : List Char) : Option Json :=
  match parseJ (cs.length + 1) cs with
  | some (j, []) => some j
  | _ => none

/-! ### Base64 (`base64.b64encode` / `base64.b64decode`) -/

/-- The standard base64 alphabet. -/
def b64Alphabet : List Char :=
  ("ABCDEFGHIJKLMNOPQRSTUVWXYZabcdefghijklmnopqrstuvwxyz0123456789+/" : String).toList

/-- The alphabet character for a 6-bit value. -/
def sextetChar (n : ℕ) : Char := b64Alphabet.getD n 'A'

/-- The 6-bit value of an alphabet character, if any. -/
def sextetVal (c : Char) : Option ℕ := b64Alphabet.findIdx? (fun a => a = c)

/-- Encode a byte sequence in base64 with `=`-padding, as
`base64.b64encode`. -/
def b64encodeBytes : List ℕ → List Char
  | [] => []
  | [b1] => [sextetChar (b1 / 4), sextetChar (b1 % 4 * 16), '=', '=']
  | [b1, b2] =>
    [sextetChar (b1 / 4), sextetChar (b1 % 4 * 16 + b2 / 16), sextetChar (b2 % 16 * 4), '=']
  | b1 :: b2 :: b3 :: rest =>
    sextetChar (b1 / 4) :: sextetChar (b1 % 4 * 16 + b2 / 16) ::
      sextetChar (b2 % 16 * 4 + b3 / 64) :: sextetChar (b3 % 64) :: b64encodeBytes rest

/-- Decode base64 quads (input already restricted to alphabet and
padding characters); fails on any malformed quad or leftover. -/
def b64chunks : List Char → Option (List ℕ)
  | [] => some []
  | [c1, c2, '=', '='] =>
    match sextetVal c1, sextetVal c2 with
    | some v1, some v2 => some [v1 * 4 + v2 / 16]
    | _, _ => none
  | [c1, c2, c3, '='] =>
    match sextetVal c1, sextetVal c2, sextetVal c3 with
    | some v1, some v2, some v3 => some [v1 * 4 + v2 / 16, v2 % 16 * 16 + v3 / 4]
    | _, _, _ => none
  | c1 :: c2 :: c3 :: c4 :: rest =>
    match sextetVal c1, sextetVal c2, sextetVal c3, sextetVal c4 with
    | some v1, some v2, some v3, some v4 =>
      (b64chunks rest).map
        (fun bs => (v1 * 4 + v2 / 16) :: (v2 % 16 * 16 + v3 / 4) :: (v3 % 4 * 64 + v4) :: bs)
    | _, _, _, _ => none
  | _ => none

/-- `base64.b64decode` with default validation: characters outside the
alphabet and padding are discarded, then the quads are decoded. -/
def b64decodeChars (s : List Char) : Option (List ℕ) :=
  b64chunks (s.filter (fun c => (sextetVal c).isSome || c = '='))

/-- `str.encode()` restricted to the ASCII output the codec produces. -/
def strBytes (s : List Char) : List ℕ := s.map (fun c => c.toNat)

/-- `bytes.decode()` on the ASCII range. -/
def bytesStr (bs : List ℕ) : Option (List Char) :=
  if bs.all (fun b => b < 128) then some (bs.map Char.ofNat) else none

/-- The full decode pipeline of `_decode_template` (identical in
`fingerprint_processor.py` and `matcher.py`): base64-decode, decode the
bytes as text, parse as JSON; any failure is absorbed by the
`try/except` and surfaces as `none`. -/
def decode_template (template : List Char) : Option Json :=
  (b64decodeChars template).bind (fun bs => (bytesStr bs).bind jsonLoads)

/-- The full encode pipeline used by `_generate_template`:
`base64.b64encode(json.dumps(data).encode()).decode()`. -/
def encodeJson (j : Json) : List Char := b64encodeBytes (strBytes (dumps j))

/-! ### Wellformedness of the emitted JSON subset -/

/-- A character the renderer emits unescaped inside a string: printable
ASCII that is neither the quote nor the backslash. -/
def plainChar (c : Char) : Bool :=
  32 ≤ c.toNat && c.toNat < 127 && c.toNat ≠ 34 && c.toNat ≠ 92

mutual

/-- Values whose rendering the parser inverts: all strings consist of
plain characters (the template fields are such strings). -/
def wfJ : Json → Bool
  | .null => true
  | .bool _ => true
  | .num _ _ => true
  | .str s => s.all plainChar
  | .arr xs => wfItems xs
  | .obj kvs => wfMembers kvs

/-- Wellformedness of array elements. -/
def wfItems : List Json → Bool
  | [] => true
  | x :: xs => wfJ x && wfItems xs

/-- Wellformedness of object members: plain keys, wellformed values. -/
def wfMembers : List (List Char × Json) → Bool
  | [] => true
  | kv :: kvs => kv.1.all plainChar && wfJ kv.2 && wfMembers kvs

end

/-! ### Template records and the codec entry points -/

/-- An exact decimal `m / 10 ^ e`, the image of a Python int or float
field of a template. -/
structure DecNum where
  m : ℤ
  e : ℕ
deriving DecidableEq

/-- The rational value of a decimal. -/
def decValQ (d : DecNum) : ℚ := (d.m : ℚ) / 10 ^ d.e

/-- One minutia record as stored in a template: integer coordinates, a
decimal orientation and a type tag, exactly the dict built by
`_extract_minutiae`. -/
structure MinutiaRec where
  x : ℤ
  y : ℤ
  ori : DecNum
  mtype : List Char

/-- A template record: the fields serialized by `_generate_template`. -/
structure TemplateRec where
  version : List Char
  quality : DecNum
  height : ℤ
  width : ℤ
  minutiae : List MinutiaRec
  minutiae_count : ℤ

def keyVersion : List Char := ("version" : String).toList
def keyQuality : List Char := ("quality" : String).toList
def keyImageShape : List Char := ("image_shape" : String).toList
def keyMinutiae : List Char := ("minutiae" : String).toList
def keyCount : List Char := ("minutiae_count" : String).toList
def keyCreatedAt : List Char := ("created_at" : String).toList
def keyX : List Char := ("x" : String).toList
def keyY : List Char := ("y" : String).toList
def keyOrientation : List Char := ("orientation" : String).toList
def keyType : List Char := ("type" : String).toList

/-- `self.template_version` of `FingerprintProcessor`. -/
def versionChars : List Char := ("1.0" : String).toList

/-- The JSON object for one minutia, in the key order the source
builds it. -/
def minutiaJson (p : MinutiaRec) : Json :=
  .obj [(keyX, .num p.x 0), (keyY, .num p.y 0),
        (keyOrientation, .num p.ori.m p.ori.e), (keyType, .str p.mtype)]

/-- The JSON object serialized for a template record, in the key order
of the `template_data` dict of `_generate_template` (including the
`created_at: None` filler). -/
def templateJson (T : TemplateRec) : Json :=
  .obj [(keyVersion, .str T.version),
        (keyQuality, .num T.quality.m T.quality.e),
        (keyImageShape, .arr [.num T.height 0, .num T.width 0]),
        (keyMinutiae, .arr (T.minutiae.map minutiaJson)),
        (keyCount, .num T.minutiae_count 0),
        (keyCreatedAt, .null)]

/-- `_generate_template(minutiae, quality, image_shape)`: builds the
dict with `version = self.template_version` and
`minutiae_count = len(minutiae)`, serializes and base64-encodes it. -/
def generate_template (minutiae : List MinutiaRec) (quality : DecNum)
    (height width : ℤ) : List Char :=
  encodeJson (templateJson ⟨versionChars, quality, height, width, minutiae,
    (minutiae.length : ℤ)⟩)

/-- Python truthiness of a decoded JSON value (`if not template_data`,
`if not minutiae`): `None`, `False`, zero, and empty containers are
falsy. -/
def truthy : Json → Bool
  | .null => false
  | .bool b => b
  | .num m _ => m ≠ 0
  | .str s => !s.isEmpty
  | .arr xs => !xs.isEmpty
  | .obj kvs => !kvs.isEmpty

/-- Last-occurrence association lookup: the value `dict(...)[k]` holds
after `json.loads` builds the dict (later duplicates win). -/
def lookupLast (kvs : List (List Char × Json)) (k : List Char) : Option Json :=
  kvs.foldl (fun acc kv => if kv.1 = k then some kv.2 else acc) none

/-- `dict.get(k, d)`. -/
def getFieldD (kvs : List (List Char × Json)) (k : List Char) (d : Json) : Json :=
  (lookupLast kvs k).getD d

/-- Result of `verify_quality`: either the error dict (decode failure,
falsy or non-dict data, or a comparison raising) or the
`is_valid/quality/minutiae_count` dict with the raw stored numbers. -/
inductive VQResult where
  | err : VQResult
  | ok (is_valid : Bool) (quality : DecNum) (minutiae_count : DecNum) : VQResult
deriving DecidableEq

/-- `self.min_quality_threshold` of `FingerprintProcessor`. -/
def min_quality_threshold : ℚ := 0.6

/-- `verify_quality(template)`: decode, reject falsy data, read the
`quality` (default `0.0`) and `minutiae_count` (default `0`) fields and
compare against the thresholds.  The stored quality is returned as-is.
Non-numeric fields make the comparison raise, which the `except`
converts to the error dict. -/
def verify_quality (template : List Char) : VQResult :=
  match decode_template template with
  | none => .err
  | some d =>
    if truthy d = false then .err
    else
      match d with
      | .obj kvs =>
        match getFieldD kvs keyQuality (.num 0 1), getFieldD kvs keyCount (.num 0 0) with
        | .num qm qe, .num cm ce =>
          .ok (decide (min_quality_threshold ≤ decValQ ⟨qm, qe⟩ ∧ 10 ≤ decValQ ⟨cm, ce⟩))
            ⟨qm, qe⟩ ⟨cm, ce⟩
        | _, _ => .err
      | _ => .err

/-! ### The matching engine (`matcher.py`), over `ℝ` -/

noncomputable section

open Classical

/-- `self.match_threshold` of `FingerprintMatcher`. -/
def match_threshold : ℝ := 0.7

/-- `self.max_distance_threshold` of `FingerprintMatcher`. -/
def max_distance_threshold : ℝ := 50

/-- `self.orientation_tolerance` of `FingerprintMatcher`. -/
def orientation_tolerance : ℝ := 0.5

/-- A minutia as consumed by the matcher: position and orientation. -/
structure Minutia where
  x : ℝ
  y : ℝ
  orientation : ℝ

/-- The first loop of `_normalize_angle`: `while angle > pi: angle -= 2 * pi`. -/
def subTwoPi (a : ℝ) : ℝ :=
  if Real.pi < a then subTwoPi (a - 2 * Real.pi) else a
termination_by (⌈(a - Real.pi) / (2 * Real.pi)⌉).toNat
decreasing_by
  have hπ := Real.pi_pos
  have hx : 0 < (a - Real.pi) / (2 * Real.pi) := by
    apply div_pos <;> linarith
  have harg : (a - 2 * Real.pi - Real.pi) / (2 * Real.pi)
      = (a - Real.pi) / (2 * Real.pi) - 1 := by
    field_simp
    ring
  have hceil : (0 : ℤ) < ⌈(a - Real.pi) / (2 * Real.pi)⌉ := Int.ceil_pos.mpr hx
  rw [harg, Int.ceil_sub_one]
  omega

/-- The second loop of `_normalize_angle`: `while angle < -pi: angle += 2 * pi`. -/
def addTwoPi (a : ℝ) : ℝ :=
  if a < -Real.pi then addTwoPi (a + 2 * Real.pi) else a
termination_by (⌈(-Real.pi - a) / (2 * Real.pi)⌉).toNat
decreasing_by
  have hπ := Real.pi_pos
  have hx : 0 < (-Real.pi - a) / (2 * Real.pi) := by
    apply div_pos <;> linarith
  have harg : (-Real.pi - (a + 2 * Real.pi)) / (2 * Real.pi)
      = (-Real.pi - a) / (2 * Real.pi) - 1 := by
    field_simp
    ring
  have hceil : (0 : ℤ) < ⌈(-Real.pi - a) / (2 * Real.pi)⌉ := Int.ceil_pos.mpr hx
  rw [harg, Int.ceil_sub_one]
  omega

/-- `_normalize_angle`: both loops, in source order. -/
def normalize_angle (a : ℝ) : ℝ := addTwoPi (subTwoPi a)

/-- `np.linalg.norm(point1 - point2)`: the Euclidean distance. -/
def distR (p q : Minutia) : ℝ :=
  Real.sqrt ((p.x - q.x) ^ 2 + (p.y - q.y) ^ 2)

/-- The absolute circularly-normalized orientation difference between
two minutiae. -/
def odiffR (p q : Minutia) : ℝ := |normalize_angle (p.orientation - q.orientation)|

/-- One tuple `(index1, index2, distance, orientation_difference)` of
`_find_minutiae_correspondences`. -/
structure Corr where
  i : ℕ
  j : ℕ
  distance : ℝ
  odiff : ℝ

/-- The combined greedy score `distance + orientation_diff * 20`. -/
def corrScore (c : Corr) : ℝ := c.distance + c.odiff * 20

/-- One iteration of the inner loop of
`_find_minutiae_correspondences`: skip claimed indices and gated
candidates, keep the strictly best combined score (first seen wins
ties).  An absent running best is Python's `best_score = float("inf")`:
the comparison against it always succeeds, which the vacuous
`∀ b ∈ best` condition models exactly. -/
def scanStep (p : Minutia) (i : ℕ) (used : List ℕ)
    (best : Option (Corr × ℝ)) (jq : ℕ × Minutia) : Option (Corr × ℝ) :=
  if jq.1 ∈ used then best
  else if max_distance_threshold < distR p jq.2 then best
  else if orientation_tolerance < odiffR p jq.2 then best
  else if ∀ b ∈ best, distR p jq.2 + odiffR p jq.2 * 20 < b.2 then
    some (⟨i, jq.1, distR p jq.2, odiffR p jq.2⟩, distR p jq.2 + odiffR p jq.2 * 20)
  else best

/-- The inner loop of `_find_minutiae_correspondences`: scan the
enumerated points of B.  The state carries the running best together
with its score (`best_score`, initially `float("inf")`, is `none`
here). -/
def scan_candidates (p : Minutia) (i : ℕ) (bs : List (ℕ × Minutia))
    (used : List ℕ) : Option (Corr × ℝ) :=
  bs.foldl (scanStep p i used) none

/-- One iteration of the outer loop of
`_find_minutiae_correspondences`: run the inner scan for one A point
and claim the chosen B index. -/
def corrStep (bsE : List (ℕ × Minutia)) (st : List Corr × List ℕ)
    (ip : ℕ × Minutia) : List Corr × List ℕ :=
  match scan_candidates ip.2 ip.1 bsE st.2 with
  | none => st
  | some c => (st.1 ++ [c.1], st.2 ++ [c.1.j])

/-- The outer loop of `_find_minutiae_correspondences`: for each point
of A in order, run the inner scan and claim the chosen B index. -/
def find_minutiae_correspondences (as bs : List Minutia) : List Corr :=
  (as.enum.foldl (corrStep bs.enum) ([], [])).1

/-- `_calculate_match_confidence` on two minutiae lists: 0 for an empty
input or an empty correspondence list; otherwise the weighted sum of
the match fraction and the average distance and orientation scores,
plus the match-count bonus, capped at 1. -/
def calculate_match_confidence (m1 m2 : List Minutia) : ℝ :=
  if m1 = [] ∨ m2 = [] then 0
  else
    let ms := find_minutiae_correspondences m1 m2
    if ms = [] then 0
    else
      let mc : ℝ := (ms.length : ℕ)
      let total : ℝ := ((max m1.length m2.length : ℕ) : ℝ)
      let dsum := (ms.map (fun c => max 0 (1 - c.distance / max_distance_threshold))).sum
      let osum := (ms.map (fun c => max 0 (1 - |c.odiff| / orientation_tolerance))).sum
      let base := 0.4 * (mc / total) + 0.3 * (dsum / mc) + 0.3 * (osum / mc)
      let conf :=
        if 15 ≤ ms.length then base + 0.1
        else if 10 ≤ ms.length then base + 0.05
        else base
      min conf 1

/-- The real value of a JSON number. -/
def decValR (m : ℤ) (e : ℕ) : ℝ := (m : ℝ) / 10 ^ e

/-- Extraction of one minutia dict inside
`_calculate_match_confidence`: `m["x"]` and `m["y"]` must exist and be
numbers (otherwise the comprehension or the numpy arithmetic raises),
`m.get("orientation", 0)` defaults to 0. -/
def toMinutia (j : Json) : Option Minutia :=
  match j with
  | .obj kvs =>
    match lookupLast kvs keyX, lookupLast kvs keyY,
        getFieldD kvs keyOrientation (.num 0 0) with
    | some (.num mx ex), some (.num my ey), .num mo eo =>
      some ⟨decValR mx ex, decValR my ey, decValR mo eo⟩
    | _, _, _ => none
  | _ => none

/-- Extraction of a minutiae list from the decoded JSON field. -/
def toMinutiae (j : Json) : Option (List Minutia) :=
  match j with
  | .arr xs => xs.mapM toMinutia
  | _ => none

/-- `_calculate_match_confidence` on the raw JSON `minutiae` values:
the leading falsiness test, then extraction (any failure is caught by
the `except` and yields 0), then the confidence computation. -/
def confidenceJson (v1 v2 : Json) : ℝ :=
  if truthy v1 = false ∨ truthy v2 = false then 0
  else
    match toMinutiae v1, toMinutiae v2 with
    | some a, some b => calculate_match_confidence a b
    | _, _ => 0

/-- One stored template entry handed to `match_fingerprint`
(`template_info.get("studentId")` / `.get("template")`). -/
structure Candidate where
  studentId : Option (List Char)
  template : Option (List Char)

/-- One iteration of the candidate loop of `match_fingerprint`.
Returns `none` when the iteration raises (a truthy non-dict decode
makes `.get` raise `AttributeError`, aborting the whole search), and
`some` of the updated `(best_match, best_confidence)` state otherwise.
The running best is replaced only when the new confidence is strictly
greater and clears the threshold. -/
def stepCand (inputMv : Json) (st : Option (List Char × ℝ) × ℝ) (c : Candidate) :
    Option (Option (List Char × ℝ) × ℝ) :=
  match c.studentId, c.template with
  | some sid, some t =>
    if sid = [] ∨ t = [] then some st
    else
      match decode_template t with
      | none => some st
      | some sd =>
        if truthy sd = false then some st
        else
          match sd with
          | .obj kvs =>
            let mv := getFieldD kvs keyMinutiae (.arr [])
            if truthy mv = false then some st
            else
              let conf := confidenceJson inputMv mv
              some (if st.2 < conf ∧ match_threshold ≤ conf then (some (sid, conf), conf) else st)
          | _ => none
  | _, _ => some st

/-- The candidate loop; an exception in any iteration propagates. -/
def loopCands (inputMv : Json) : List Candidate → (Option (List Char × ℝ) × ℝ) →
    Option (Option (List Char × ℝ) × ℝ)
  | [], st => some st
  | c :: cs, st =>
    match stepCand inputMv st c with
    | none => none
    | some st2 => loopCands inputMv cs st2

/-- `match_fingerprint(input_template, templates)`: decode the input
(`None` on failure or falsy data or missing/falsy minutiae), then run
the candidate loop from `(None, 0.0)`; the outer `except` converts any
raised exception into `None`. -/
def match_fingerprint (input_template : List Char) (templates : List Candidate) :
    Option (List Char × ℝ) :=
  match decode_template input_template with
  | none => none
  | some d =>
    if truthy d = false then none
    else
      match d with
      | .obj kvs =>
        let mv := getFieldD kvs keyMinutiae (.arr [])
        if truthy mv = false then none
        else
          match loopCands mv templates (none, 0) with
          | none => none
          | some st => st.1
      | _ => none

/-! ### Specification-side definitions (transcribed from the spec text,
for the refinement claims) -/

/-- Transcribed from the spec: the per-candidate decode of best-match
search.  A candidate with a missing or falsy id or template, a template
that fails to decode or is falsy, or a missing or falsy minutiae list
contributes nothing; otherwise it contributes its id paired with the
confidence against the input minutiae. -/
def candPair (inputMv : Json) (c : Candidate) : Option (List Char × ℝ) :=
  match c.studentId, c.template with
  | some sid, some t =>
    if sid = [] ∨ t = [] then none
    else
      match decode_template t with
      | none => none
      | some sd =>
        if truthy sd = false then none
        else
          match sd with
          | .obj kvs =>
            let mv := getFieldD kvs keyMinutiae (.arr [])
            if truthy mv = false then none
            else some (sid, confidenceJson inputMv mv)
          | _ => none
  | _, _ => none

/-- The id/confidence pairs of the candidates that survive decoding,
in input order. -/
def validPairs (inputMv : Json) (templates : List Candidate) : List (List Char × ℝ) :=
  templates.filterMap (candPair inputMv)

/-- Transcribed from the spec: best-match selection returns the
earliest pair attaining the maximum confidence among the pairs whose
confidence reaches the match threshold, and nothing when no pair
reaches it. -/
def bestMatchSpec (pairs : List (List Char × ℝ)) : Option (List Char × ℝ) :=
  let qual := pairs.filter (fun p => decide (match_threshold ≤ p.2))
  match (qual.map Prod.snd).max? with
  | none => none
  | some mval => qual.find? (fun p => decide (p.2 = mval))

/-- The diagonal correspondence list produced by a self-match. -/
def diagCorrs (n : ℕ) : List Corr :=
  (List.range n).map (fun t => ⟨t, t, 0, 0⟩)

/-- A correspondence is sound for the inputs `as`, `bs`: it joins an
actual point of each list, records their true distance and normalized
orientation difference, and passes both gates. -/
def corrSound (as bs : List Minutia) (c : Corr) : Prop :=
  (∃ p q, as.get? c.i = some p ∧ bs.get? c.j = some q
      ∧ c.distance = distR p q ∧ c.odiff = odiffR p q)
  ∧ c.distance ≤ max_distance_threshold ∧ c.odiff ≤ orientation_tolerance

/-- A correspondence list is greedy-minimal for `as`, `bs`: each of its
entries has a combined score no worse than any point of `bs` that was
still unclaimed when the entry was chosen and passes both gates. -/
def corrGreedy (as bs : List Minutia) (L : List Corr) : Prop :=
  ∀ n c, L.get? n = some c → ∀ p, as.get? c.i = some p →
    ∀ jq ∈ bs.enum, jq.1 ∉ (L.take n).map Corr.j →
      distR p jq.2 ≤ max_distance_threshold →
      odiffR p jq.2 ≤ orientation_tolerance →
      corrScore c ≤ distR p jq.2 + odiffR p jq.2 * 20

/-- The invariant of the outer loop of
`_find_minutiae_correspondences`: the claimed-index list mirrors the
chosen `j` indices, both index projections are duplicate-free and in
range, and every entry is sound and greedy-minimal. -/
def corrInv (as bs : List Minutia) (bound : ℕ) (st : List Corr × List ℕ) : Prop :=
  st.2 = st.1.map Corr.j
  ∧ (st.1.map Corr.i).Nodup
  ∧ (st.1.map Corr.j).Nodup
  ∧ (∀ c ∈ st.1, c.i < bound)
  ∧ (∀ c ∈ st.1, c.j < bs.length)
  ∧ (∀ c ∈ st.1, corrSound as bs c)
  ∧ corrGreedy as bs st.1

/-- The pure state update of the candidate loop on the outcome of one
candidate: nothing for a skipped candidate, the threshold-gated
strictly-greater update otherwise. -/
def stepPure (st : Option (List Char × ℝ) × ℝ) (p : Option (List Char × ℝ)) :
    Option (List Char × ℝ) × ℝ :=
  match p with
  | none => st
  | some pr => if st.2 < pr.2 ∧ match_threshold ≤ pr.2 then (some pr, pr.2) else st

/-- A candidate that cannot abort the loop: whenever its template
decodes to a truthy value, that value is a JSON object (so
`stored_data.get` does not raise). -/
def okCand (c : Candidate) : Prop :=
  ∀ t, c.template = some t → ∀ d, decode_template t = some d → truthy d = true →
    ∃ kvs, d = Json.obj kvs

/-- A candidate in the cases the claim describes as skipped: whenever
its id and template are present and non-empty, the template either
fails to decode, or decodes to a falsy value, or decodes to an object
whose `minutiae` field is missing or falsy. -/
def skippedCand (b : Candidate) : Prop :=
  ∀ sid t, b.studentId = some sid → b.template = some t → sid ≠ [] → t ≠ [] →
    (decode_template t = none ∨
     (∃ d, decode_template t = some d ∧ truthy d = false) ∨
     (∃ kvs, decode_template t = some (Json.obj kvs) ∧
        truthy (getFieldD kvs keyMinutiae (Json.arr [])) = false))

/-! ### Concrete instances for the matching claims -/

/-- A concrete serialized minutia. -/
def minuJ : Json :=
  Json.obj [(keyX, Json.num 10 0), (keyY, Json.num 10 0),
    (keyOrientation, Json.num 0 0), (keyType, Json.str (("ending" : String).toList))]

/-- The minutia `minuJ` extracts to. -/
def minuP : Minutia := ⟨decValR 10 0, decValR 10 0, decValR 0 0⟩

/-- A concrete decoded template object with one minutia. -/
def tmplKvs : List (List Char × Json) :=
  [(keyVersion, Json.str versionChars),
   (keyQuality, Json.num 85 2),
   (keyImageShape, Json.arr [Json.num 100 0, Json.num 120 0]),
   (keyMinutiae, Json.arr [minuJ]),
   (keyCount, Json.num 1 0),
   (keyCreatedAt, Json.null)]

/-- The encoded form of `tmplKvs`. -/
def goodChars : List Char := encodeJson (Json.obj tmplKvs)

/-- An encoded template that decodes to a truthy non-object value. -/
def badChars : List Char := encodeJson (Json.arr [Json.num 1 0])

def sidA : List Char := ("A" : String).toList
def sidB : List Char := ("B" : String).toList

/-- A healthy candidate carrying `goodChars`. -/
def goodCand : Candidate := ⟨some sidA, some goodChars⟩

/-- A second healthy candidate with the same template. -/
def goodCandB : Candidate := ⟨some sidB, some goodChars⟩

/-- The corrupt candidate: its template decodes, but not to a dict. -/
def badCand : Candidate := ⟨some sidB, some badChars⟩

end

/-- A remainder that cannot extend a digit run. -/
def digitStop : List Char → Bool
  | [] => true
  | c :: _ => !isDigitCh c

/-- A remainder that cannot extend a rendered number: empty or headed
by a character that is neither a digit nor the decimal point.  Every
inter-token position of the emitted grammar qualifies. -/
def numStop : List Char → Bool
  | [] => true
  | c :: _ => !isDigitCh c && c ≠ '.'

/-! ## Theorems

### Digit strings -/

theorem digitChar_toNat {d : ℕ} (h : d < 10) : (digitChar d).toNat = 48 + d := by
  interval_cases d <;> decide

theorem isDigitCh_digitChar {d : ℕ} (h : d < 10) : isDigitCh (digitChar d) = true := by
  interval_cases d <;> decide

theorem natChars_eq (n : ℕ) :
    natChars n = if n < 10 then [digitChar n]
      else natChars (n / 10) ++ [digitChar (n % 10)] := by
  rw [natChars]
  simp [dite_eq_ite]

theorem natChars_ne_nil (n : ℕ) : natChars n ≠ [] := by
  rw [natChars_eq]
  split <;> simp

theorem natChars_digits (n : ℕ) : ∀ c ∈ natChars n, isDigitCh c = true := by
  induction n using Nat.strong_induction_on with
  | _ n ih =>
    rw [natChars_eq]
    split
    · intro c hc
      rw [List.mem_singleton] at hc
      subst hc
      exact isDigitCh_digitChar (by omega)
    · intro c hc
      rw [List.mem_append] at hc
      rcases hc with hc | hc
      · exact ih (n / 10) (Nat.div_lt_self (by omega) (by omega)) c hc
      · rw [List.mem_singleton] at hc
        subst hc
        exact isDigitCh_digitChar (Nat.mod_lt _ (by omega))

theorem digitsVal_foldl (l : List Char) (a : ℕ) :
    l.foldl (fun a c => a * 10 + (c.toNat - 48)) a
      = a * 10 ^ l.length + digitsVal l := by
  induction l generalizing a with
  | nil => simp [digitsVal]
  | cons c r ih =>
    have hr : digitsVal (c :: r) = (c.toNat - 48) * 10 ^ r.length + digitsVal r := by
      show List.foldl _ (0 * 10 + (c.toNat - 48)) r = _
      rw [ih]
      ring_nf
    rw [List.foldl_cons, ih, hr, List.length_cons]
    ring

theorem digitsVal_append (l1 l2 : List Char) :
    digitsVal (l1 ++ l2) = digitsVal l1 * 10 ^ l2.length + digitsVal l2 := by
  unfold digitsVal
  rw [List.foldl_append]
  rw [show List.foldl (fun a c => a * 10 + (c.toNat - 48)) 0 l1 = digitsVal l1 from rfl]
  exact digitsVal_foldl l2 (digitsVal l1)

theorem digitsVal_natChars (n : ℕ) : digitsVal (natChars n) = n := by
  induction n using Nat.strong_induction_on with
  | _ n ih =>
    rw [natChars_eq]
    split
    · rename_i h
      show 0 * 10 + ((digitChar n).toNat - 48) = n
      rw [digitChar_toNat h]
      omega
    · rename_i h
      rw [digitsVal_append, ih (n / 10) (Nat.div_lt_self (by omega) (by omega))]
      have : digitsVal [digitChar (n % 10)] = n % 10 := by
        show 0 * 10 + ((digitChar (n % 10)).toNat - 48) = n % 10
        rw [digitChar_toNat (Nat.mod_lt _ (by omega))]
        omega
      rw [this]
      simp
      omega

theorem natChars_length_le {n e : ℕ} (hn : n < 10 ^ e) (he : 1 ≤ e) :
    (natChars n).length ≤ e := by
  induction e generalizing n with
  | zero => omega
  | succ e ih =>
    rw [natChars_eq]
    split
    · simp
    · rename_i h
      have he1 : 1 ≤ e := by
        by_contra hc
        have : e = 0 := by omega
        subst this
        simp at hn
        omega
      have : n / 10 < 10 ^ e := by
        rw [pow_succ] at hn
        omega
      have := ih this he1
      simp only [List.length_append, List.length_singleton]
      omega

theorem grabDigits_stop {rest : List Char} (h : digitStop rest = true) :
    grabDigits rest = ([], rest) := by
  match rest with
  | [] => rfl
  | c :: t =>
    simp only [digitStop, Bool.not_eq_true'] at h
    simp [grabDigits, h]

theorem grabDigits_run {ds : List Char} (hds : ∀ c ∈ ds, isDigitCh c = true)
    {rest : List Char} (hrest : digitStop rest = true) :
    grabDigits (ds ++ rest) = (ds, rest) := by
  induction ds with
  | nil => simpa using grabDigits_stop hrest
  | cons c t ih =>
    have hc : isDigitCh c = true := hds c (by simp)
    have ht := ih (fun x hx => hds x (by simp [hx]))
    simp [grabDigits, hc, ht]

theorem digitsVal_padZeros (k : ℕ) (ds : List Char) :
    digitsVal (padZeros k ds) = digitsVal ds := by
  unfold padZeros
  rw [digitsVal_append]
  have : digitsVal (List.replicate (k - ds.length) '0') = 0 := by
    induction k - ds.length with
    | zero => rfl
    | succ n ih =>
      rw [List.replicate_succ]
      show List.foldl _ (0 * 10 + ((('0' : Char).toNat) - 48)) _ = 0
      simpa using ih
  rw [this]
  omega

theorem padZeros_digits {ds : List Char} (hds : ∀ c ∈ ds, isDigitCh c = true)
    (k : ℕ) : ∀ c ∈ padZeros k ds, isDigitCh c = true := by
  intro c hc
  unfold padZeros at hc
  rw [List.mem_append] at hc
  rcases hc with hc | hc
  · rw [List.eq_of_mem_replicate hc]
    decide
  · exact hds c hc

theorem padZeros_length {ds : List Char} {k : ℕ} (h : ds.length ≤ k) :
    (padZeros k ds).length = k := by
  unfold padZeros
  simp
  omega

theorem padZeros_ne_nil {ds : List Char} {k : ℕ} (h : ds ≠ []) :
    padZeros k ds ≠ [] := by
  unfold padZeros
  simp [h]

theorem parsePosNum_decChars_int (n : ℕ) {rest : List Char}
    (hrest : numStop rest = true) :
    parsePosNum (natChars n ++ rest) = some (((n : ℤ), 0), rest) := by
  have hstop : digitStop rest = true := by
    match rest with
    | [] => rfl
    | c :: t =>
      simp only [numStop, Bool.and_eq_true, Bool.not_eq_true'] at hrest
      simp [digitStop, hrest.1]
  rw [parsePosNum, grabDigits_run (natChars_digits n) hstop]
  simp only [List.isEmpty_eq_true]
  rw [if_neg (natChars_ne_nil n)]
  match rest, hrest with
  | [], _ => simp [digitsVal_natChars]
  | c :: t, hrest =>
    simp only [numStop, Bool.and_eq_true, Bool.not_eq_true', decide_eq_true_eq] at hrest
    have hdot : c ≠ '.' := hrest.2
    split
    · rename_i heq
      exact absurd (List.head_eq_of_cons_eq heq) hdot
    · simp [digitsVal_natChars]

theorem parsePosNum_decChars_frac {n e : ℕ} (he : e ≠ 0) {rest : List Char}
    (hrest : numStop rest = true) :
    parsePosNum ((natChars (n / 10 ^ e) ++ '.' :: padZeros e (natChars (n % 10 ^ e))) ++ rest)
      = some (((n : ℤ), e), rest) := by
  have hstop : digitStop rest = true := by
    match rest with
    | [] => rfl
    | c :: t =>
      simp only [numStop, Bool.and_eq_true, Bool.not_eq_true'] at hrest
      simp [digitStop, hrest.1]
  have hfraclen : (natChars (n % 10 ^ e)).length ≤ e :=
    natChars_length_le (Nat.mod_lt _ (by positivity)) (by omega)
  have harr : (natChars (n / 10 ^ e) ++ '.' :: padZeros e (natChars (n % 10 ^ e))) ++ rest
      = natChars (n / 10 ^ e) ++ '.' :: (padZeros e (natChars (n % 10 ^ e)) ++ rest) := by
    simp
  rw [harr, parsePosNum,
    grabDigits_run (natChars_digits _) (by simp [digitStop, isDigitCh])]
  simp only [List.isEmpty_eq_true]
  rw [if_neg (natChars_ne_nil _)]
  rw [grabDigits_run (padZeros_digits (natChars_digits _) e) hstop]
  rw [if_neg (by simp [padZeros_ne_nil (natChars_ne_nil _)])]
  rw [digitsVal_padZeros, digitsVal_natChars, digitsVal_natChars,
    padZeros_length hfraclen]
  have hsplit : n / 10 ^ e * 10 ^ e + n % 10 ^ e = n := by
    rw [Nat.mul_comm]
    exact Nat.div_add_mod n (10 ^ e)
  rw [hsplit]

theorem isDigitCh_ne_minus {c : Char} (h : isDigitCh c = true) : c ≠ '-' := by
  intro hc
  rw [hc] at h
  exact absurd h (by decide)

theorem natChars_head (n : ℕ) :
    ∃ c t, natChars n = c :: t ∧ isDigitCh c = true := by
  match h : natChars n with
  | [] => exact absurd h (natChars_ne_nil n)
  | c :: t => exact ⟨c, t, rfl, natChars_digits n c (by rw [h]; simp)⟩

theorem parseNumD_not_minus {c : Char} (h : c ≠ '-') (t : List Char) :
    parseNumD (c :: t) = parsePosNum (c :: t) := by
  simp only [parseNumD]
  split
  · rename_i heq
    exact absurd (List.head_eq_of_cons_eq heq) h
  · rfl

theorem parseNumD_decChars (m : ℤ) (e : ℕ) {rest : List Char}
    (hrest : numStop rest = true) :
    parseNumD (decChars m e ++ rest) = some ((m, e), rest) := by
  by_cases hm : m < 0
  · by_cases he : e = 0
    · subst he
      have harg : decChars m 0 ++ rest = '-' :: (natChars m.natAbs ++ rest) := by
        simp [decChars, hm]
      rw [harg, parseNumD, parsePosNum_decChars_int _ hrest]
      simp only [Option.map_some']
      have hcast : (-(m.natAbs : ℤ)) = m := by omega
      rw [hcast]
    · have harg : decChars m e ++ rest
          = '-' :: ((natChars (m.natAbs / 10 ^ e) ++ '.' ::
              padZeros e (natChars (m.natAbs % 10 ^ e))) ++ rest) := by
        simp [decChars, hm, he]
      rw [harg, parseNumD, parsePosNum_decChars_frac he hrest]
      simp only [Option.map_some']
      have hcast : (-(m.natAbs : ℤ)) = m := by omega
      rw [hcast]
  · have hnabs : ((m.natAbs : ℤ)) = m := Int.natAbs_of_nonneg (by omega)
    by_cases he : e = 0
    · subst he
      obtain ⟨c, t, hct, hc⟩ := natChars_head m.natAbs
      have harg : decChars m 0 ++ rest = c :: (t ++ rest) := by
        simp [decChars, hm, hct]
      rw [harg, parseNumD_not_minus (isDigitCh_ne_minus hc),
        show c :: (t ++ rest) = natChars m.natAbs ++ rest by rw [hct]; simp,
        parsePosNum_decChars_int _ hrest, hnabs]
    · obtain ⟨c, t, hct, hc⟩ := natChars_head (m.natAbs / 10 ^ e)
      have harg : decChars m e ++ rest
          = c :: (t ++ '.' :: padZeros e (natChars (m.natAbs % 10 ^ e)) ++ rest) := by
        simp [decChars, hm, he, hct]
      rw [harg, parseNumD_not_minus (isDigitCh_ne_minus hc),
        show c :: (t ++ '.' :: padZeros e (natChars (m.natAbs % 10 ^ e)) ++ rest)
          = (natChars (m.natAbs / 10 ^ e) ++ '.' ::
              padZeros e (natChars (m.natAbs % 10 ^ e))) ++ rest by rw [hct]; simp,
        parsePosNum_decChars_frac he hrest, hnabs]

/-! ### String bodies and parser dispatch -/

theorem plainChar_ne_quote {c : Char} (h : plainChar c = true) : c ≠ '"' := by
  intro hc
  rw [hc] at h
  exact absurd h (by decide)

theorem scanString_run {s : List Char} (hs : ∀ c ∈ s, c ≠ '"') (rest : List Char) :
    scanString (s ++ '"' :: rest) = some (s, rest) := by
  induction s with
  | nil => simp [scanString]
  | cons c t ih =>
    have hc : c ≠ '"' := hs c (by simp)
    simp [scanString, hc, ih (fun x hx => hs x (by simp [hx]))]

theorem isDigitCh_ne {c : Char} (h : isDigitCh c = true) :
    c ≠ 'n' ∧ c ≠ 't' ∧ c ≠ 'f' ∧ c ≠ '"' ∧ c ≠ '[' ∧ c ≠ lbrace ∧ c ≠ ']'
      ∧ c ≠ rbrace ∧ c ≠ ',' ∧ c ≠ ':' := by
  refine ⟨?_, ?_, ?_, ?_, ?_, ?_, ?_, ?_, ?_, ?_⟩ <;>
    (intro hEq; rw [hEq] at h; exact absurd h (by decide))

theorem decChars_head (m : ℤ) (e : ℕ) :
    ∃ c t, decChars m e = c :: t ∧ (c = '-' ∨ isDigitCh c = true) := by
  by_cases hm : m < 0
  · have hdec : decChars m e
        = '-' :: (if e = 0 then natChars m.natAbs
            else natChars (m.natAbs / 10 ^ e) ++ '.' ::
              padZeros e (natChars (m.natAbs % 10 ^ e))) := by
      simp [decChars, hm]
    exact ⟨'-', _, hdec, Or.inl rfl⟩
  · by_cases he : e = 0
    · obtain ⟨c, t, hct, hc⟩ := natChars_head m.natAbs
      have hdec : decChars m e = c :: t := by
        simp [decChars, hm, he, hct]
      exact ⟨c, t, hdec, Or.inr hc⟩
    · obtain ⟨c, t, hct, hc⟩ := natChars_head (m.natAbs / 10 ^ e)
      have hdec : decChars m e
          = c :: (t ++ '.' :: padZeros e (natChars (m.natAbs % 10 ^ e))) := by
        simp [decChars, hm, he, hct]
      exact ⟨c, _, hdec, Or.inr hc⟩

theorem dumps_head (j : Json) : ∃ c t, dumps j = c :: t ∧ c ≠ ']' := by
  cases j with
  | null => exact ⟨'n', _, rfl, by decide⟩
  | bool b => cases b with
    | true => exact ⟨'t', _, rfl, by decide⟩
    | false => exact ⟨'f', _, rfl, by decide⟩
  | num m e =>
    obtain ⟨c, t, hct, hc⟩ := decChars_head m e
    refine ⟨c, t, by simp [dumps, hct], ?_⟩
    rcases hc with hc | hc
    · rw [hc]; decide
    · exact (isDigitCh_ne hc).2.2.2.2.2.2.1
  | str s => exact ⟨'"', _, rfl, by decide⟩
  | arr xs => exact ⟨'[', _, rfl, by decide⟩
  | obj kvs => exact ⟨lbrace, _, rfl, by decide⟩

theorem parseJ_succ_null (f : ℕ) (r : List Char) :
    parseJ (f + 1) ('n' :: 'u' :: 'l' :: 'l' :: r) = some (.null, r) := rfl

theorem parseJ_succ_true (f : ℕ) (r : List Char) :
    parseJ (f + 1) ('t' :: 'r' :: 'u' :: 'e' :: r) = some (.bool true, r) := rfl

theorem parseJ_succ_false (f : ℕ) (r : List Char) :
    parseJ (f + 1) ('f' :: 'a' :: 'l' :: 's' :: 'e' :: r) = some (.bool false, r) := rfl

theorem parseJ_succ_quote (f : ℕ) (r : List Char) :
    parseJ (f + 1) ('"' :: r)
      = (scanString r).map (fun p => (.str p.1, p.2)) := rfl

theorem parseJ_succ_lbrack (f : ℕ) (r : List Char) :
    parseJ (f + 1) ('[' :: r)
      = (match r with
         | [] => none
         | c2 :: r2 =>
           if c2 = ']' then some (.arr [], r2)
           else (parseItems f (c2 :: r2)).map (fun p => (.arr p.1, p.2))) := rfl

theorem parseJ_succ_lbrace (f : ℕ) (r : List Char) :
    parseJ (f + 1) (lbrace :: r)
      = (match r with
         | [] => none
         | c2 :: r2 =>
           if c2 = rbrace then some (.obj [], r2)
           else (parseMembers f (c2 :: r2)).map (fun p => (.obj p.1, p.2))) := rfl

theorem parseJ_succ_num (f : ℕ) {c : Char} (r : List Char)
    (h1 : c ≠ 'n') (h2 : c ≠ 't') (h3 : c ≠ 'f') (h4 : c ≠ '"')
    (h5 : c ≠ '[') (h6 : c ≠ lbrace) (h7 : c = '-' ∨ isDigitCh c = true) :
    parseJ (f + 1) (c :: r)
      = (parseNumD (c :: r)).map (fun p => (.num p.1.1 p.1.2, p.2)) := by
  have hcond : (decide (c = '-') || isDigitCh c) = true := by
    rcases h7 with h | h
    · simp [h]
    · simp [h]
  simp only [parseJ]
  simp [h1, h2, h3, h4, h5, h6, hcond]

theorem parseItems_succ (f : ℕ) (cs : List Char) :
    parseItems (f + 1) cs
      = (match parseJ f cs with
         | none => none
         | some (v, r) =>
           match r with
           | [] => none
           | c :: r2 =>
             if c = ',' then (parseItems f r2).map (fun p => (v :: p.1, p.2))
             else if c = ']' then some ([v], r2)
             else none) := rfl

theorem parseMembers_succ (f : ℕ) (cs : List Char) :
    parseMembers (f + 1) cs
      = (match cs with
         | [] => none
         | c :: r =>
           if c = '"' then
             match scanString r with
             | none => none
             | some (k, r1) =>
               match r1 with
               | [] => none
               | c1 :: r2 =>
                 if c1 = ':' then
                   match parseJ f r2 with
                   | none => none
                   | some (v, r3) =>
                     match r3 with
                     | [] => none
                     | c2 :: r4 =>
                       if c2 = ',' then
                         (parseMembers f r4).map (fun p => ((k, v) :: p.1, p.2))
                       else if c2 = rbrace then some ([(k, v)], r4)
                       else none
                 else none
           else none) := rfl

/-! ### The codec round-trip -/

theorem numStop_nil : numStop [] = true := rfl

theorem numStop_comma (t : List Char) : numStop (',' :: t) = true := rfl

theorem numStop_rbrack (t : List Char) : numStop (']' :: t) = true := rfl

theorem numStop_rbrace (t : List Char) : numStop (rbrace :: t) = true := rfl

theorem dumpsItemsRest_cons (y : Json) (ys : List Json) :
    dumpsItemsRest (y :: ys) = ',' :: dumpsItems (y :: ys) := rfl

theorem dumpsMembersRest_cons (kv : List Char × Json) (kvs : List (List Char × Json)) :
    dumpsMembersRest (kv :: kvs) = ',' :: dumpsMembers (kv :: kvs) := rfl

theorem parseJ_succ_lbrack_cons (f : ℕ) (c2 : Char) (r2 : List Char) :
    parseJ (f + 1) ('[' :: c2 :: r2)
      = (if c2 = ']' then some (.arr [], r2)
         else (parseItems f (c2 :: r2)).map (fun p => (.arr p.1, p.2))) := rfl

theorem parseJ_succ_lbrace_cons (f : ℕ) (c2 : Char) (r2 : List Char) :
    parseJ (f + 1) (lbrace :: c2 :: r2)
      = (if c2 = rbrace then some (.obj [], r2)
         else (parseMembers f (c2 :: r2)).map (fun p => (.obj p.1, p.2))) := rfl

theorem wfItems_cons {x : Json} {xs : List Json} (h : wfItems (x :: xs) = true) :
    wfJ x = true ∧ wfItems xs = true := by
  rw [show wfItems (x :: xs) = (wfJ x && wfItems xs) from rfl] at h
  simpa [Bool.and_eq_true] using h

theorem wfMembers_cons {kv : List Char × Json} {kvs : List (List Char × Json)}
    (h : wfMembers (kv :: kvs) = true) :
    kv.1.all plainChar = true ∧ wfJ kv.2 = true ∧ wfMembers kvs = true := by
  rw [show wfMembers (kv :: kvs)
      = (kv.1.all plainChar && wfJ kv.2 && wfMembers kvs) from rfl] at h
  simpa [Bool.and_eq_true, and_assoc] using h

mutual

theorem rt_val : ∀ (j : Json) (f : ℕ) (rest : List Char),
    wfJ j = true → (dumps j).length < f → numStop rest = true →
    parseJ f (dumps j ++ rest) = some (j, rest)
  | .null, f, rest, _, hf, _ => by
    cases f with
    | zero => simp [dumps] at hf
    | succ f =>
      rw [show dumps .null ++ rest = 'n' :: 'u' :: 'l' :: 'l' :: rest from rfl,
        parseJ_succ_null]
  | .bool true, f, rest, _, hf, _ => by
    cases f with
    | zero => simp [dumps] at hf
    | succ f =>
      rw [show dumps (.bool true) ++ rest = 't' :: 'r' :: 'u' :: 'e' :: rest from rfl,
        parseJ_succ_true]
  | .bool false, f, rest, _, hf, _ => by
    cases f with
    | zero => simp [dumps] at hf
    | succ f =>
      rw [show dumps (.bool false) ++ rest = 'f' :: 'a' :: 'l' :: 's' :: 'e' :: rest from rfl,
        parseJ_succ_false]
  | .num m e, f, rest, _, hf, hrest => by
    cases f with
    | zero => exact absurd hf (Nat.not_lt_zero _)
    | succ f =>
      obtain ⟨c, t, hct, hprop⟩ := decChars_head m e
      have harg : dumps (.num m e) ++ rest = c :: (t ++ rest) := by
        simp [dumps, hct]
      have hback : c :: (t ++ rest) = decChars m e ++ rest := by
        rw [hct]
        rfl
      rcases hprop with hminus | hdig
      · subst hminus
        rw [harg, parseJ_succ_num f (t ++ rest) (by decide) (by decide) (by decide)
            (by decide) (by decide) (by decide) (Or.inl rfl),
          hback, parseNumD_decChars m e hrest]
        rfl
      · obtain ⟨n1, n2, n3, n4, n5, n6, _, _, _, _⟩ := isDigitCh_ne hdig
        rw [harg, parseJ_succ_num f (t ++ rest) n1 n2 n3 n4 n5 n6 (Or.inr hdig),
          hback, parseNumD_decChars m e hrest]
        rfl
  | .str s, f, rest, hwf, hf, _ => by
    cases f with
    | zero => exact absurd hf (Nat.not_lt_zero _)
    | succ f =>
      have hall : s.all plainChar = true := hwf
      have hplain : ∀ c ∈ s, c ≠ '"' := fun c hc =>
        plainChar_ne_quote (List.all_eq_true.mp hall c hc)
      have harg : dumps (.str s) ++ rest = '"' :: (s ++ '"' :: rest) := by
        simp [dumps]
      rw [harg, parseJ_succ_quote, scanString_run hplain rest]
      rfl
  | .arr [], f, rest, _, hf, _ => by
    cases f with
    | zero => exact absurd hf (Nat.not_lt_zero _)
    | succ f =>
      have harg : dumps (.arr []) ++ rest = '[' :: (']' :: rest) := by
        simp [dumps, dumpsItems]
      rw [harg, parseJ_succ_lbrack_cons]
      simp
  | .arr (x :: xs), f, rest, hwf, hf, _ => by
    cases f with
    | zero => exact absurd hf (Nat.not_lt_zero _)
    | succ f =>
      have hwf2 : wfItems (x :: xs) = true := hwf
      have hfl : (dumpsItems (x :: xs)).length + 1 < f := by
        have : (dumps (.arr (x :: xs))).length
            = (dumpsItems (x :: xs)).length + 2 := by
          simp [dumps]
        omega
      obtain ⟨c, t, hx, hc⟩ := dumps_head x
      have hcons : dumpsItems (x :: xs) ++ ']' :: rest
          = c :: (t ++ dumpsItemsRest xs ++ ']' :: rest) := by
        simp [dumpsItems, hx]
      have harg : dumps (.arr (x :: xs)) ++ rest
          = '[' :: c :: (t ++ dumpsItemsRest xs ++ ']' :: rest) := by
        rw [show dumps (.arr (x :: xs))
            = '[' :: dumpsItems (x :: xs) ++ [']'] from rfl]
        rw [show ('[' :: dumpsItems (x :: xs) ++ [']']) ++ rest
            = '[' :: (dumpsItems (x :: xs) ++ ']' :: rest) by simp]
        rw [hcons]
      have key := rt_items x xs f rest hwf2 hfl
      rw [harg, parseJ_succ_lbrack_cons, if_neg hc, ← hcons, key]
      rfl
  | .obj [], f, rest, _, hf, _ => by
    cases f with
    | zero => exact absurd hf (Nat.not_lt_zero _)
    | succ f =>
      have harg : dumps (.obj []) ++ rest = lbrace :: (rbrace :: rest) := by
        simp [dumps, dumpsMembers]
      rw [harg, parseJ_succ_lbrace_cons]
      simp
  | .obj (kv :: kvs), f, rest, hwf, hf, _ => by
    cases f with
    | zero => exact absurd hf (Nat.not_lt_zero _)
    | succ f =>
      have hwf2 : wfMembers (kv :: kvs) = true := hwf
      have hfl : (dumpsMembers (kv :: kvs)).length + 1 < f := by
        have : (dumps (.obj (kv :: kvs))).length
            = (dumpsMembers (kv :: kvs)).length + 2 := by
          simp [dumps]
        omega
      have hcons : dumpsMembers (kv :: kvs) ++ rbrace :: rest
          = '"' :: (kv.1 ++ '"' :: ':' :: dumps kv.2
              ++ dumpsMembersRest kvs ++ rbrace :: rest) := by
        simp [dumpsMembers]
      have harg : dumps (.obj (kv :: kvs)) ++ rest
          = lbrace :: '"' :: (kv.1 ++ '"' :: ':' :: dumps kv.2
              ++ dumpsMembersRest kvs ++ rbrace :: rest) := by
        rw [show dumps (.obj (kv :: kvs))
            = lbrace :: dumpsMembers (kv :: kvs) ++ [rbrace] from rfl]
        rw [show (lbrace :: dumpsMembers (kv :: kvs) ++ [rbrace]) ++ rest
            = lbrace :: (dumpsMembers (kv :: kvs) ++ rbrace :: rest) by simp]
        rw [hcons]
      have key := rt_members kv kvs f rest hwf2 hfl
      rw [harg, parseJ_succ_lbrace_cons,
        if_neg (show ¬('"' = rbrace) from by decide), ← hcons, key]
      rfl
termination_by j _ _ => sizeOf j

theorem rt_items : ∀ (x : Json) (xs : List Json) (f : ℕ) (rest : List Char),
    wfItems (x :: xs) = true → (dumpsItems (x :: xs)).length + 1 < f →
    parseItems f (dumpsItems (x :: xs) ++ ']' :: rest) = some (x :: xs, rest)
  | x, [], f, rest, hwf, hf => by
    cases f with
    | zero => exact absurd hf (Nat.not_lt_zero _)
    | succ f =>
      have hwfx : wfJ x = true := (wfItems_cons hwf).1
      have hfx : (dumps x).length < f := by
        have : (dumpsItems [x]).length = (dumps x).length := by
          simp [dumpsItems, dumpsItemsRest]
        omega
      have harg : dumpsItems [x] ++ ']' :: rest = dumps x ++ ']' :: rest := by
        simp [dumpsItems, dumpsItemsRest]
      rw [harg, parseItems_succ]
      have hval := rt_val x f (']' :: rest) hwfx hfx (numStop_rbrack rest)
      simp [hval, (show ¬((']' : Char) = ',') from by decide)]
  | x, y :: ys, f, rest, hwf, hf => by
    cases f with
    | zero => exact absurd hf (Nat.not_lt_zero _)
    | succ f =>
      have hwfx : wfJ x = true := (wfItems_cons hwf).1
      have hwft : wfItems (y :: ys) = true := (wfItems_cons hwf).2
      have hlen : (dumpsItems (x :: y :: ys)).length
          = (dumps x).length + 1 + (dumpsItems (y :: ys)).length := by
        rw [show dumpsItems (x :: y :: ys)
            = dumps x ++ dumpsItemsRest (y :: ys) from rfl,
          dumpsItemsRest_cons]
        simp
        omega
      have hfx : (dumps x).length < f := by omega
      have hft : (dumpsItems (y :: ys)).length + 1 < f := by omega
      have harg : dumpsItems (x :: y :: ys) ++ ']' :: rest
          = dumps x ++ ',' :: (dumpsItems (y :: ys) ++ ']' :: rest) := by
        rw [show dumpsItems (x :: y :: ys)
            = dumps x ++ dumpsItemsRest (y :: ys) from rfl,
          dumpsItemsRest_cons]
        simp
      have key := rt_items y ys f rest hwft hft
      rw [harg, parseItems_succ]
      have hval := rt_val x f (',' :: (dumpsItems (y :: ys) ++ ']' :: rest)) hwfx hfx
        (numStop_comma _)
      simp [hval, key]
termination_by x xs _ _ => sizeOf x + sizeOf xs

theorem rt_members : ∀ (kv : List Char × Json) (kvs : List (List Char × Json))
    (f : ℕ) (rest : List Char),
    wfMembers (kv :: kvs) = true → (dumpsMembers (kv :: kvs)).length + 1 < f →
    parseMembers f (dumpsMembers (kv :: kvs) ++ rbrace :: rest) = some (kv :: kvs, rest)
  | (k, v), [], f, rest, hwf, hf => by
    cases f with
    | zero => exact absurd hf (Nat.not_lt_zero _)
    | succ f =>
      obtain ⟨hk, hv, _⟩ := wfMembers_cons hwf
      have hkq : ∀ c ∈ k, c ≠ '"' := fun c hc =>
        plainChar_ne_quote (List.all_eq_true.mp hk c hc)
      have hfv : (dumps v).length < f := by
        have : (dumpsMembers [(k, v)]).length
            = k.length + 3 + (dumps v).length := by
          rw [show dumpsMembers [(k, v)]
              = '"' :: k ++ '"' :: ':' :: dumps v ++ dumpsMembersRest [] from rfl]
          simp [dumpsMembersRest]
          omega
        omega
      have harg : dumpsMembers [(k, v)] ++ rbrace :: rest
          = '"' :: (k ++ '"' :: ':' :: (dumps v ++ rbrace :: rest)) := by
        rw [show dumpsMembers [(k, v)]
            = '"' :: k ++ '"' :: ':' :: dumps v ++ dumpsMembersRest [] from rfl]
        simp [dumpsMembersRest]
      rw [harg, parseMembers_succ]
      have hscan := scanString_run hkq (':' :: (dumps v ++ rbrace :: rest))
      have hval := rt_val v f (rbrace :: rest) hv hfv (numStop_rbrace rest)
      simp [hscan, hval, (show ¬(rbrace = ',') from by decide)]
  | (k, v), kv2 :: kvs, f, rest, hwf, hf => by
    cases f with
    | zero => exact absurd hf (Nat.not_lt_zero _)
    | succ f =>
      obtain ⟨hk, hv, htail⟩ := wfMembers_cons hwf
      have hkq : ∀ c ∈ k, c ≠ '"' := fun c hc =>
        plainChar_ne_quote (List.all_eq_true.mp hk c hc)
      have hlen : (dumpsMembers ((k, v) :: kv2 :: kvs)).length
          = k.length + 4 + (dumps v).length + (dumpsMembers (kv2 :: kvs)).length := by
        rw [show dumpsMembers ((k, v) :: kv2 :: kvs)
            = '"' :: k ++ '"' :: ':' :: dumps v ++ dumpsMembersRest (kv2 :: kvs) from rfl,
          dumpsMembersRest_cons]
        simp
        omega
      have hfv : (dumps v).length < f := by omega
      have hft : (dumpsMembers (kv2 :: kvs)).length + 1 < f := by omega
      have harg : dumpsMembers ((k, v) :: kv2 :: kvs) ++ rbrace :: rest
          = '"' :: (k ++ '"' :: ':' :: (dumps v
              ++ ',' :: (dumpsMembers (kv2 :: kvs) ++ rbrace :: rest))) := by
        rw [show dumpsMembers ((k, v) :: kv2 :: kvs)
            = '"' :: k ++ '"' :: ':' :: dumps v ++ dumpsMembersRest (kv2 :: kvs) from rfl,
          dumpsMembersRest_cons]
        simp
      have key := rt_members kv2 kvs f rest htail hft
      rw [harg, parseMembers_succ]
      have hscan := scanString_run hkq
        (':' :: (dumps v ++ ',' :: (dumpsMembers (kv2 :: kvs) ++ rbrace :: rest)))
      have hval := rt_val v f (',' :: (dumpsMembers (kv2 :: kvs) ++ rbrace :: rest)) hv hfv
        (numStop_comma _)
      simp [hscan, hval, key]
termination_by kv kvs _ _ => sizeOf kv + sizeOf kvs

end

theorem jsonLoads_dumps {j : Json} (hwf : wfJ j = true) :
    jsonLoads (dumps j) = some j := by
  have h := rt_val j ((dumps j).length + 1) [] hwf (by omega) numStop_nil
  rw [List.append_nil] at h
  unfold jsonLoads
  rw [h]

/-! ### ASCII range of the rendering -/

theorem isDigitCh_ascii {c : Char} (h : isDigitCh c = true) : c.toNat < 128 := by
  simp only [isDigitCh, Bool.and_eq_true, decide_eq_true_eq] at h
  omega

theorem natChars_ascii (n : ℕ) : ∀ c ∈ natChars n, c.toNat < 128 :=
  fun c hc => isDigitCh_ascii (natChars_digits n c hc)

theorem padZeros_ascii {ds : List Char} (h : ∀ c ∈ ds, c.toNat < 128) (k : ℕ) :
    ∀ c ∈ padZeros k ds, c.toNat < 128 := by
  intro c hc
  unfold padZeros at hc
  rw [List.mem_append] at hc
  rcases hc with hc | hc
  · rw [List.eq_of_mem_replicate hc]
    decide
  · exact h c hc

theorem decChars_ascii (m : ℤ) (e : ℕ) : ∀ c ∈ decChars m e, c.toNat < 128 := by
  intro c hc
  unfold decChars at hc
  rw [List.mem_append] at hc
  rcases hc with hc | hc
  · split at hc
    · rw [List.mem_singleton] at hc
      rw [hc]
      decide
    · exact absurd hc (List.not_mem_nil c)
  · split at hc
    · exact natChars_ascii _ c hc
    · rw [List.mem_append] at hc
      rcases hc with hc | hc
      · exact natChars_ascii _ c hc
      · rw [List.mem_cons] at hc
        rcases hc with rfl | hc
        · decide
        · exact padZeros_ascii (natChars_ascii _) e c hc

theorem plainChar_ascii {c : Char} (h : plainChar c = true) : c.toNat < 128 := by
  simp only [plainChar, Bool.and_eq_true, decide_eq_true_eq] at h
  omega

mutual

theorem dumps_ascii : ∀ (j : Json), wfJ j = true → ∀ c ∈ dumps j, c.toNat < 128
  | .null, _, c, hc => by
    have h : c = 'n' ∨ c = 'u' ∨ c = 'l' ∨ c = 'l' := by
      simpa [dumps] using hc
    rcases h with rfl | rfl | rfl | rfl <;> decide
  | .bool true, _, c, hc => by
    have h : c = 't' ∨ c = 'r' ∨ c = 'u' ∨ c = 'e' := by
      simpa [dumps] using hc
    rcases h with rfl | rfl | rfl | rfl <;> decide
  | .bool false, _, c, hc => by
    have h : c = 'f' ∨ c = 'a' ∨ c = 'l' ∨ c = 's' ∨ c = 'e' := by
      simpa [dumps] using hc
    rcases h with rfl | rfl | rfl | rfl | rfl <;> decide
  | .num m e, _, c, hc => decChars_ascii m e c hc
  | .str s, hwf, c, hc => by
    have hall : s.all plainChar = true := hwf
    have h : c = '"' ∨ c ∈ s ∨ c = '"' := by
      simpa [dumps, List.mem_append] using hc
    rcases h with rfl | hm | rfl
    · decide
    · exact plainChar_ascii (List.all_eq_true.mp hall c hm)
    · decide
  | .arr xs, hwf, c, hc => by
    have h : c = '[' ∨ c ∈ dumpsItems xs ∨ c = ']' := by
      simpa [dumps, List.mem_append] using hc
    rcases h with rfl | hm | rfl
    · decide
    · exact dumpsItems_ascii xs hwf c hm
    · decide
  | .obj kvs, hwf, c, hc => by
    have h : c = lbrace ∨ c ∈ dumpsMembers kvs ∨ c = rbrace := by
      simpa [dumps, List.mem_append] using hc
    rcases h with rfl | hm | rfl
    · decide
    · exact dumpsMembers_ascii kvs hwf c hm
    · decide
termination_by j _ c _ => sizeOf j

theorem dumpsItems_ascii : ∀ (xs : List Json), wfItems xs = true →
    ∀ c ∈ dumpsItems xs, c.toNat < 128
  | [], _, c, hc => absurd hc (List.not_mem_nil c)
  | x :: xs, hwf, c, hc => by
    obtain ⟨hx, hxs⟩ := wfItems_cons hwf
    have h : c ∈ dumps x ∨ c ∈ dumpsItemsRest xs := by
      simpa [List.mem_append] using
        (show c ∈ dumps x ++ dumpsItemsRest xs from hc)
    rcases h with hm | hm
    · exact dumps_ascii x hx c hm
    · exact dumpsItemsRest_ascii xs hxs c hm
termination_by xs _ c _ => sizeOf xs

theorem dumpsItemsRest_ascii : ∀ (xs : List Json), wfItems xs = true →
    ∀ c ∈ dumpsItemsRest xs, c.toNat < 128
  | [], _, c, hc => absurd hc (List.not_mem_nil c)
  | x :: xs, hwf, c, hc => by
    obtain ⟨hx, hxs⟩ := wfItems_cons hwf
    have h : c = ',' ∨ c ∈ dumps x ∨ c ∈ dumpsItemsRest xs := by
      simpa [List.mem_cons, List.mem_append] using
        (show c ∈ ',' :: (dumps x ++ dumpsItemsRest xs) from hc)
    rcases h with rfl | hm | hm
    · decide
    · exact dumps_ascii x hx c hm
    · exact dumpsItemsRest_ascii xs hxs c hm
termination_by xs _ c _ => sizeOf xs

theorem dumpsMembers_ascii : ∀ (kvs : List (List Char × Json)), wfMembers kvs = true →
    ∀ c ∈ dumpsMembers kvs, c.toNat < 128
  | [], _, c, hc => absurd hc (List.not_mem_nil c)
  | (k, v) :: kvs, hwf, c, hc => by
    obtain ⟨hk, hv, htail⟩ := wfMembers_cons hwf
    have h : c = '"' ∨ c ∈ k ∨ c = '"' ∨ c = ':'
        ∨ c ∈ dumps v ∨ c ∈ dumpsMembersRest kvs := by
      simpa [List.mem_cons, List.mem_append] using
        (show c ∈ '"' :: k ++ '"' :: ':' :: dumps v ++ dumpsMembersRest kvs from hc)
    rcases h with rfl | hm | rfl | rfl | hm | hm
    · decide
    · exact plainChar_ascii (List.all_eq_true.mp hk c hm)
    · decide
    · decide
    · exact dumps_ascii v hv c hm
    · exact dumpsMembersRest_ascii kvs htail c hm
termination_by kvs _ c _ => sizeOf kvs

theorem dumpsMembersRest_ascii : ∀ (kvs : List (List Char × Json)), wfMembers kvs = true →
    ∀ c ∈ dumpsMembersRest kvs, c.toNat < 128
  | [], _, c, hc => absurd hc (List.not_mem_nil c)
  | (k, v) :: kvs, hwf, c, hc => by
    obtain ⟨hk, hv, htail⟩ := wfMembers_cons hwf
    have h : c = ',' ∨ c = '"' ∨ c ∈ k ∨ c = '"' ∨ c = ':'
        ∨ c ∈ dumps v ∨ c ∈ dumpsMembersRest kvs := by
      simpa [List.mem_cons, List.mem_append] using
        (show c ∈ ',' :: '"' :: k ++ '"' :: ':' :: dumps v
            ++ dumpsMembersRest kvs from hc)
    rcases h with rfl | rfl | hm | rfl | rfl | hm | hm
    · decide
    · decide
    · exact plainChar_ascii (List.all_eq_true.mp hk c hm)
    · decide
    · decide
    · exact dumps_ascii v hv c hm
    · exact dumpsMembersRest_ascii kvs htail c hm
termination_by kvs _ c _ => sizeOf kvs

end

/-! ### Base64 round-trip -/

theorem sextet_rt : ∀ n < 64, sextetVal (sextetChar n) = some n := by decide

theorem sextetChar_isSome {n : ℕ} (h : n < 64) :
    (sextetVal (sextetChar n)).isSome = true := by
  rw [sextet_rt n h]
  rfl

theorem sextetChar_ne_pad {n : ℕ} (h : n < 64) : sextetChar n ≠ '=' := by
  intro heq
  have hrt := sextet_rt n h
  rw [heq, show sextetVal '=' = none from rfl] at hrt
  exact Option.noConfusion hrt

theorem b64encode_pred : ∀ (bs : List ℕ), (∀ b ∈ bs, b < 256) →
    ∀ c ∈ b64encodeBytes bs, ((sextetVal c).isSome || decide (c = '=')) = true
  | [], _, c, hc => absurd hc (List.not_mem_nil c)
  | [b1], hb, c, hc => by
    have h1 : b1 < 256 := hb b1 (by simp)
    have hm : c = sextetChar (b1 / 4) ∨ c = sextetChar (b1 % 4 * 16)
        ∨ c = '=' ∨ c = '=' := by
      simpa [b64encodeBytes] using hc
    rcases hm with rfl | rfl | rfl | rfl
    · simp [sextetChar_isSome (show b1 / 4 < 64 by omega)]
    · simp [sextetChar_isSome (show b1 % 4 * 16 < 64 by omega)]
    · simp
    · simp
  | [b1, b2], hb, c, hc => by
    have h1 : b1 < 256 := hb b1 (by simp)
    have h2 : b2 < 256 := hb b2 (by simp)
    have hm : c = sextetChar (b1 / 4) ∨ c = sextetChar (b1 % 4 * 16 + b2 / 16)
        ∨ c = sextetChar (b2 % 16 * 4) ∨ c = '=' := by
      simpa [b64encodeBytes] using hc
    rcases hm with rfl | rfl | rfl | rfl
    · simp [sextetChar_isSome (show b1 / 4 < 64 by omega)]
    · simp [sextetChar_isSome (show b1 % 4 * 16 + b2 / 16 < 64 by omega)]
    · simp [sextetChar_isSome (show b2 % 16 * 4 < 64 by omega)]
    · simp
  | b1 :: b2 :: b3 :: rest, hb, c, hc => by
    have h1 : b1 < 256 := hb b1 (by simp)
    have h2 : b2 < 256 := hb b2 (by simp)
    have h3 : b3 < 256 := hb b3 (by simp)
    have hm : c = sextetChar (b1 / 4) ∨ c = sextetChar (b1 % 4 * 16 + b2 / 16)
        ∨ c = sextetChar (b2 % 16 * 4 + b3 / 64) ∨ c = sextetChar (b3 % 64)
        ∨ c ∈ b64encodeBytes rest := by
      simpa [b64encodeBytes] using hc
    rcases hm with rfl | rfl | rfl | rfl | hm
    · simp [sextetChar_isSome (show b1 / 4 < 64 by omega)]
    · simp [sextetChar_isSome (show b1 % 4 * 16 + b2 / 16 < 64 by omega)]
    · simp [sextetChar_isSome (show b2 % 16 * 4 + b3 / 64 < 64 by omega)]
    · simp [sextetChar_isSome (show b3 % 64 < 64 by omega)]
    · exact b64encode_pred rest (fun b hbm => hb b (by simp [hbm])) c hm

theorem b64chunks_encode : ∀ (bs : List ℕ), (∀ b ∈ bs, b < 256) →
    b64chunks (b64encodeBytes bs) = some bs
  | [], _ => rfl
  | [b1], hb => by
    have h1 : b1 < 256 := hb b1 (by simp)
    have hv1 := sextet_rt (b1 / 4) (by omega)
    have hv2 := sextet_rt (b1 % 4 * 16) (by omega)
    show b64chunks [sextetChar (b1 / 4), sextetChar (b1 % 4 * 16), '=', '='] = some [b1]
    have hred : b64chunks [sextetChar (b1 / 4), sextetChar (b1 % 4 * 16), '=', '=']
        = (match sextetVal (sextetChar (b1 / 4)), sextetVal (sextetChar (b1 % 4 * 16)) with
           | some v1, some v2 => some [v1 * 4 + v2 / 16]
           | _, _ => none) := rfl
    rw [hred, hv1, hv2]
    show some [b1 / 4 * 4 + b1 % 4 * 16 / 16] = some [b1]
    have he : b1 / 4 * 4 + b1 % 4 * 16 / 16 = b1 := by omega
    rw [he]
  | [b1, b2], hb => by
    have h1 : b1 < 256 := hb b1 (by simp)
    have h2 : b2 < 256 := hb b2 (by simp)
    have hv1 := sextet_rt (b1 / 4) (by omega)
    have hv2 := sextet_rt (b1 % 4 * 16 + b2 / 16) (by omega)
    have hv3 := sextet_rt (b2 % 16 * 4) (by omega)
    have hne3 : sextetChar (b2 % 16 * 4) ≠ '=' := sextetChar_ne_pad (by omega)
    show b64chunks [sextetChar (b1 / 4), sextetChar (b1 % 4 * 16 + b2 / 16),
      sextetChar (b2 % 16 * 4), '='] = some [b1, b2]
    simp [b64chunks, hv1, hv2, hv3, hne3]
    omega
  | b1 :: b2 :: b3 :: rest, hb => by
    have h1 : b1 < 256 := hb b1 (by simp)
    have h2 : b2 < 256 := hb b2 (by simp)
    have h3 : b3 < 256 := hb b3 (by simp)
    have hv1 := sextet_rt (b1 / 4) (by omega)
    have hv2 := sextet_rt (b1 % 4 * 16 + b2 / 16) (by omega)
    have hv3 := sextet_rt (b2 % 16 * 4 + b3 / 64) (by omega)
    have hv4 := sextet_rt (b3 % 64) (by omega)
    have hne3 : sextetChar (b2 % 16 * 4 + b3 / 64) ≠ '=' := sextetChar_ne_pad (by omega)
    have hne4 : sextetChar (b3 % 64) ≠ '=' := sextetChar_ne_pad (by omega)
    have key := b64chunks_encode rest (fun b hbm => hb b (by simp [hbm]))
    show b64chunks (sextetChar (b1 / 4) :: sextetChar (b1 % 4 * 16 + b2 / 16) ::
      sextetChar (b2 % 16 * 4 + b3 / 64) :: sextetChar (b3 % 64)
        :: b64encodeBytes rest) = some (b1 :: b2 :: b3 :: rest)
    cases hrest : b64encodeBytes rest with
    | nil =>
      rw [hrest] at key
      have hrnil : rest = [] := by simpa [b64chunks] using key
      subst hrnil
      simp [b64chunks, hv1, hv2, hv3, hv4, hne3, hne4]
      omega
    | cons ch ct =>
      rw [hrest] at key
      simp [b64chunks, hv1, hv2, hv3, hv4, key]
      omega

theorem b64_rt {bs : List ℕ} (hb : ∀ b ∈ bs, b < 256) :
    b64decodeChars (b64encodeBytes bs) = some bs := by
  unfold b64decodeChars
  rw [List.filter_eq_self.mpr (b64encode_pred bs hb), b64chunks_encode bs hb]

theorem bytesStr_strBytes {s : List Char} (h : ∀ c ∈ s, c.toNat < 128) :
    bytesStr (strBytes s) = some s := by
  unfold bytesStr strBytes
  rw [if_pos]
  · rw [List.map_map]
    have hmap : ∀ c ∈ s, (Char.ofNat ∘ fun c => c.toNat) c = id c := fun c _ =>
      Char.ofNat_toNat c
    rw [List.map_congr_left hmap, List.map_id]
  · rw [List.all_eq_true]
    intro b hb
    rw [List.mem_map] at hb
    obtain ⟨c, hc, rfl⟩ := hb
    simpa using h c hc

/-- Decoding inverts encoding for every wellformed JSON value: the full
`base64 + json` transport round-trips. -/
theorem decode_encodeJson {j : Json} (hwf : wfJ j = true) :
    decode_template (encodeJson j) = some j := by
  have hascii := dumps_ascii j hwf
  have hbytes : ∀ b ∈ strBytes (dumps j), b < 256 := by
    intro b hb
    unfold strBytes at hb
    rw [List.mem_map] at hb
    obtain ⟨c, hc, rfl⟩ := hb
    have := hascii c hc
    omega
  unfold decode_template encodeJson
  simp [b64_rt hbytes, bytesStr_strBytes hascii, jsonLoads_dumps hwf]

/-! ### Field access on the decoded template object -/

theorem templateKvs_version (T : TemplateRec) :
    getFieldD [(keyVersion, Json.str T.version), (keyQuality, Json.num T.quality.m T.quality.e), (keyImageShape, Json.arr [Json.num T.height 0, Json.num T.width 0]), (keyMinutiae, Json.arr (T.minutiae.map minutiaJson)), (keyCount, Json.num T.minutiae_count 0), (keyCreatedAt, Json.null)] keyVersion Json.null = Json.str T.version := by
  simp [getFieldD, lookupLast, (show keyQuality ≠ keyVersion from by decide), (show keyImageShape ≠ keyVersion from by decide), (show keyMinutiae ≠ keyVersion from by decide), (show keyCount ≠ keyVersion from by decide), (show keyCreatedAt ≠ keyVersion from by decide)]

theorem templateKvs_quality (T : TemplateRec) :
    getFieldD [(keyVersion, Json.str T.version), (keyQuality, Json.num T.quality.m T.quality.e), (keyImageShape, Json.arr [Json.num T.height 0, Json.num T.width 0]), (keyMinutiae, Json.arr (T.minutiae.map minutiaJson)), (keyCount, Json.num T.minutiae_count 0), (keyCreatedAt, Json.null)] keyQuality Json.null = Json.num T.quality.m T.quality.e := by
  simp [getFieldD, lookupLast, (show keyVersion ≠ keyQuality from by decide), (show keyImageShape ≠ keyQuality from by decide), (show keyMinutiae ≠ keyQuality from by decide), (show keyCount ≠ keyQuality from by decide), (show keyCreatedAt ≠ keyQuality from by decide)]

theorem templateKvs_imageshape (T : TemplateRec) :
    getFieldD [(keyVersion, Json.str T.version), (keyQuality, Json.num T.quality.m T.quality.e), (keyImageShape, Json.arr [Json.num T.height 0, Json.num T.width 0]), (keyMinutiae, Json.arr (T.minutiae.map minutiaJson)), (keyCount, Json.num T.minutiae_count 0), (keyCreatedAt, Json.null)] keyImageShape Json.null = Json.arr [Json.num T.height 0, Json.num T.width 0] := by
  simp [getFieldD, lookupLast, (show keyVersion ≠ keyImageShape from by decide), (show keyQuality ≠ keyImageShape from by decide), (show keyMinutiae ≠ keyImageShape from by decide), (show keyCount ≠ keyImageShape from by decide), (show keyCreatedAt ≠ keyImageShape from by decide)]

theorem templateKvs_minutiae (T : TemplateRec) :
    getFieldD [(keyVersion, Json.str T.version), (keyQuality, Json.num T.quality.m T.quality.e), (keyImageShape, Json.arr [Json.num T.height 0, Json.num T.width 0]), (keyMinutiae, Json.arr (T.minutiae.map minutiaJson)), (keyCount, Json.num T.minutiae_count 0), (keyCreatedAt, Json.null)] keyMinutiae Json.null = Json.arr (T.minutiae.map minutiaJson) := by
  simp [getFieldD, lookupLast, (show keyVersion ≠ keyMinutiae from by decide), (show keyQuality ≠ keyMinutiae from by decide), (show keyImageShape ≠ keyMinutiae from by decide), (show keyCount ≠ keyMinutiae from by decide), (show keyCreatedAt ≠ keyMinutiae from by decide)]

theorem templateKvs_count (T : TemplateRec) :
    getFieldD [(keyVersion, Json.str T.version), (keyQuality, Json.num T.quality.m T.quality.e), (keyImageShape, Json.arr [Json.num T.height 0, Json.num T.width 0]), (keyMinutiae, Json.arr (T.minutiae.map minutiaJson)), (keyCount, Json.num T.minutiae_count 0), (keyCreatedAt, Json.null)] keyCount Json.null = Json.num T.minutiae_count 0 := by
  simp [getFieldD, lookupLast, (show keyVersion ≠ keyCount from by decide), (show keyQuality ≠ keyCount from by decide), (show keyImageShape ≠ keyCount from by decide), (show keyMinutiae ≠ keyCount from by decide), (show keyCreatedAt ≠ keyCount from by decide)]

theorem wfItems_map_minutiaJson {l : List MinutiaRec}
    (h : ∀ p ∈ l, p.mtype.all plainChar = true) :
    wfItems (l.map minutiaJson) = true := by
  induction l with
  | nil => rfl
  | cons p t ih =>
    have hp : p.mtype.all plainChar = true := h p (by simp)
    have ht := ih (fun q hq => h q (by simp [hq]))
    show (wfJ (minutiaJson p) && wfItems (t.map minutiaJson)) = true
    rw [ht, show wfJ (minutiaJson p)
      = (keyX.all plainChar && true && (keyY.all plainChar && true
          && (keyOrientation.all plainChar && true
          && (keyType.all plainChar && p.mtype.all plainChar && true)))) from rfl, hp]
    decide

theorem wfJ_templateJson {T : TemplateRec}
    (hver : T.version.all plainChar = true)
    (hmin : ∀ p ∈ T.minutiae, p.mtype.all plainChar = true) :
    wfJ (templateJson T) = true := by
  show wfMembers _ = true
  rw [show wfMembers [(keyVersion, Json.str T.version),
      (keyQuality, Json.num T.quality.m T.quality.e),
      (keyImageShape, Json.arr [Json.num T.height 0, Json.num T.width 0]),
      (keyMinutiae, Json.arr (T.minutiae.map minutiaJson)),
      (keyCount, Json.num T.minutiae_count 0), (keyCreatedAt, Json.null)]
    = (keyVersion.all plainChar && T.version.all plainChar
        && (keyQuality.all plainChar && true
        && (keyImageShape.all plainChar && (true && (true && true))
        && (keyMinutiae.all plainChar && wfItems (T.minutiae.map minutiaJson)
        && (keyCount.all plainChar && true
        && (keyCreatedAt.all plainChar && true && true)))))) from rfl]
  rw [hver, wfItems_map_minutiaJson hmin]
  decide

/-! ### Claims C1, C7, C9: the codec -/

/-- C1: for every valid template record (version `"1.0"`, `minutiae_count`
equal to the length of the minutiae list, textual fields plain), decoding
the opaque string produced by encoding yields exactly the serialized
record, and every field read from the decoded object equals the
corresponding field of the record: same version, same quality, same
image shape, same minutiae sequence in order, same count. -/
theorem claim_c1_template_roundtrip (T : TemplateRec)
    (hver : T.version = versionChars)
    (hcount : T.minutiae_count = (T.minutiae.length : ℤ))
    (hplain : ∀ p ∈ T.minutiae, p.mtype.all plainChar = true) :
    decode_template (generate_template T.minutiae T.quality T.height T.width)
      = some (templateJson T)
    ∧ ∀ kvs, templateJson T = Json.obj kvs →
        getFieldD kvs keyVersion Json.null = Json.str T.version
        ∧ getFieldD kvs keyQuality Json.null = Json.num T.quality.m T.quality.e
        ∧ getFieldD kvs keyImageShape Json.null
            = Json.arr [Json.num T.height 0, Json.num T.width 0]
        ∧ getFieldD kvs keyMinutiae Json.null = Json.arr (T.minutiae.map minutiaJson)
        ∧ getFieldD kvs keyCount Json.null = Json.num T.minutiae_count 0 := by
  have hTeq : (⟨versionChars, T.quality, T.height, T.width, T.minutiae,
      (T.minutiae.length : ℤ)⟩ : TemplateRec) = T := by
    cases T
    simp only at hver hcount ⊢
    rw [hver, hcount]
  constructor
  · unfold generate_template
    rw [hTeq]
    exact decode_encodeJson (wfJ_templateJson (by rw [hver]; decide) hplain)
  · intro kvs hkvs
    have hkvs' : [(keyVersion, Json.str T.version),
        (keyQuality, Json.num T.quality.m T.quality.e),
        (keyImageShape, Json.arr [Json.num T.height 0, Json.num T.width 0]),
        (keyMinutiae, Json.arr (T.minutiae.map minutiaJson)),
        (keyCount, Json.num T.minutiae_count 0), (keyCreatedAt, Json.null)] = kvs := by
      injection hkvs
    rw [← hkvs']
    exact ⟨templateKvs_version T, templateKvs_quality T, templateKvs_imageshape T,
      templateKvs_minutiae T, templateKvs_count T⟩

/-- Witness for C1 at a concrete one-minutia template. -/
theorem claim_c1_witness :
    decode_template (generate_template
        [⟨10, 10, ⟨0, 1⟩, ("bifurcation" : String).toList⟩] ⟨85, 2⟩ 100 120)
      = some (templateJson ⟨("1.0" : String).toList, ⟨85, 2⟩, 100, 120,
          [⟨10, 10, ⟨0, 1⟩, ("bifurcation" : String).toList⟩], 1⟩) :=
  (claim_c1_template_roundtrip
    ⟨("1.0" : String).toList, ⟨85, 2⟩, 100, 120,
      [⟨10, 10, ⟨0, 1⟩, ("bifurcation" : String).toList⟩], 1⟩
    rfl (by decide) (by decide)).1

/-- C7 counterexample: a template whose `version` field is the
unrecognized string `"99.99"` decodes successfully to its record; the
code never inspects the version and raises no `UnsupportedVersion`
error, contradicting the claim that decoding fails exactly in the two
stated cases. -/
theorem claim_c7_counterexample :
    decode_template (encodeJson (templateJson
        ⟨("99.99" : String).toList, ⟨85, 2⟩, 100, 120, [], 0⟩))
      = some (templateJson ⟨("99.99" : String).toList, ⟨85, 2⟩, 100, 120, [], 0⟩) :=
  decode_encodeJson (by decide)

/-- C7 amended: `_decode_template` is total (every failure is absorbed
into `None`, never a crash) and returns an error exactly when the
base64/JSON transport fails: every well-encoded JSON value decodes
successfully whatever its content — the `version` field is never
examined and there is no `UnsupportedVersion` case — while a string
that is not valid base64 or whose bytes are not valid JSON yields
`None`. -/
theorem claim_c7_amended :
    (∀ j : Json, wfJ j = true → decode_template (encodeJson j) = some j)
    ∧ decode_template (("@@@@" : String)).toList = none
    ∧ decode_template (("AAAA" : String)).toList = none := by
  refine ⟨fun j hj => decode_encodeJson hj, ?_, ?_⟩ <;> rfl

/-- Witness for C7 amended at a concrete value. -/
theorem claim_c7_witness :
    decode_template (encodeJson Json.null) = some Json.null :=
  claim_c7_amended.1 Json.null (by decide)

/-- The `is_valid/quality/minutiae_count` result of `verify_quality` on
an encoded object template: the stored fields are returned unchanged. -/
theorem verify_quality_stored (kvs : List (List Char × Json)) (qm cm : ℤ) (qe ce : ℕ)
    (hwf : wfJ (Json.obj kvs) = true) (hne : kvs ≠ [])
    (hq : getFieldD kvs keyQuality (Json.num 0 1) = Json.num qm qe)
    (hc : getFieldD kvs keyCount (Json.num 0 0) = Json.num cm ce) :
    verify_quality (encodeJson (Json.obj kvs))
      = VQResult.ok
          (decide (min_quality_threshold ≤ decValQ ⟨qm, qe⟩ ∧ 10 ≤ decValQ ⟨cm, ce⟩))
          ⟨qm, qe⟩ ⟨cm, ce⟩ := by
  unfold verify_quality
  rw [decode_encodeJson hwf]
  have htr : truthy (Json.obj kvs) = true := by
    simp [truthy, hne]
  simp only [htr, Bool.true_eq_false, if_false, hq, hc]

/-- C9 counterexample: a template whose stored `quality` field is `2.0`
(and whose `minutiae_count` is `12`, so the template is accepted with
`is_valid = true`) makes `verify_quality` return quality `2`, which
lies outside `[0, 1]`: the returned quality is not clamped. -/
theorem claim_c9_counterexample :
    verify_quality (encodeJson (Json.obj
        [(keyQuality, Json.num 2 0), (keyCount, Json.num 12 0)]))
      = VQResult.ok true ⟨2, 0⟩ ⟨12, 0⟩
    ∧ ¬(decValQ ⟨2, 0⟩ ≤ 1) := by
  have h := verify_quality_stored
    [(keyQuality, Json.num 2 0), (keyCount, Json.num 12 0)] 2 12 0 0
    rfl (by simp) rfl rfl
  have hd : decide (min_quality_threshold ≤ decValQ ⟨2, 0⟩ ∧ 10 ≤ decValQ ⟨12, 0⟩)
      = true := by
    refine decide_eq_true ⟨?_, ?_⟩ <;> norm_num [decValQ, min_quality_threshold]
  rw [hd] at h
  refine ⟨h, ?_⟩
  norm_num [decValQ]

/-- C9 amended: `verify_quality` returns the stored `quality` and
`minutiae_count` fields of the template unchanged (defaults `0.0` and
`0` when absent), with no clamping, so the returned quality lies in
`[0, 1]` exactly when the stored value does — in particular for
templates produced by `_calculate_quality`, whose output is clamped. -/
theorem claim_c9_amended (kvs : List (List Char × Json)) (qm cm : ℤ) (qe ce : ℕ)
    (hwf : wfJ (Json.obj kvs) = true) (hne : kvs ≠ [])
    (hq : getFieldD kvs keyQuality (Json.num 0 1) = Json.num qm qe)
    (hc : getFieldD kvs keyCount (Json.num 0 0) = Json.num cm ce) :
    verify_quality (encodeJson (Json.obj kvs))
      = VQResult.ok
          (decide (min_quality_threshold ≤ decValQ ⟨qm, qe⟩ ∧ 10 ≤ decValQ ⟨cm, ce⟩))
          ⟨qm, qe⟩ ⟨cm, ce⟩ :=
  verify_quality_stored kvs qm cm qe ce hwf hne hq hc

/-- Witness for C9 amended at a concrete accepted template. -/
theorem claim_c9_witness :
    verify_quality (encodeJson (Json.obj
        [(keyQuality, Json.num 75 2), (keyCount, Json.num 15 0)]))
      = VQResult.ok
          (decide (min_quality_threshold ≤ decValQ ⟨75, 2⟩ ∧ 10 ≤ decValQ ⟨15, 0⟩))
          ⟨75, 2⟩ ⟨15, 0⟩ :=
  claim_c9_amended [(keyQuality, Json.num 75 2), (keyCount, Json.num 15 0)]
    75 15 2 0 rfl (by simp) rfl rfl

/-! ### The matching engine: basic facts -/

theorem subTwoPi_eq_self {a : ℝ} (h : a ≤ Real.pi) : subTwoPi a = a := by
  rw [subTwoPi]
  rw [if_neg (not_lt.mpr h)]

theorem addTwoPi_eq_self {a : ℝ} (h : -Real.pi ≤ a) : addTwoPi a = a := by
  rw [addTwoPi]
  rw [if_neg (not_lt.mpr h)]

theorem normalize_angle_zero : normalize_angle 0 = 0 := by
  have hπ := Real.pi_pos
  unfold normalize_angle
  rw [subTwoPi_eq_self (by linarith), addTwoPi_eq_self (by linarith)]

theorem distR_nonneg (p q : Minutia) : 0 ≤ distR p q := Real.sqrt_nonneg _

theorem distR_self (p : Minutia) : distR p p = 0 := by
  unfold distR
  simp

theorem odiffR_nonneg (p q : Minutia) : 0 ≤ odiffR p q := abs_nonneg _

theorem odiffR_self (p : Minutia) : odiffR p p = 0 := by
  unfold odiffR
  rw [sub_self, normalize_angle_zero, abs_zero]

/-! ### Inner scan: soundness, minimality, completeness -/

theorem scanStep_cases (p : Minutia) (i : ℕ) (used : List ℕ)
    (best : Option (Corr × ℝ)) (jq : ℕ × Minutia) :
    scanStep p i used best jq = best ∨
      (jq.1 ∉ used ∧ distR p jq.2 ≤ max_distance_threshold
        ∧ odiffR p jq.2 ≤ orientation_tolerance
        ∧ (∀ b ∈ best, distR p jq.2 + odiffR p jq.2 * 20 < b.2)
        ∧ scanStep p i used best jq
            = some (⟨i, jq.1, distR p jq.2, odiffR p jq.2⟩,
                distR p jq.2 + odiffR p jq.2 * 20)) := by
  unfold scanStep
  split_ifs with h1 h2 h3 h4
  · exact Or.inl rfl
  · exact Or.inl rfl
  · exact Or.inl rfl
  · exact Or.inr ⟨h1, not_lt.mp h2, not_lt.mp h3, h4, rfl⟩
  · exact Or.inl rfl

theorem scanFold_sound (p : Minutia) (i : ℕ) (used : List ℕ) :
    ∀ (bs : List (ℕ × Minutia)) (acc : Option (Corr × ℝ)) (c : Corr) (s : ℝ),
    bs.foldl (scanStep p i used) acc = some (c, s) →
    acc = some (c, s) ∨
      (c.i = i ∧ c.j ∉ used
        ∧ (∃ q, (c.j, q) ∈ bs ∧ c.distance = distR p q ∧ c.odiff = odiffR p q)
        ∧ c.distance ≤ max_distance_threshold ∧ c.odiff ≤ orientation_tolerance
        ∧ s = c.distance + c.odiff * 20) := by
  intro bs
  induction bs with
  | nil => intro acc c s h; exact Or.inl h
  | cons jq t ih =>
    intro acc c s h
    rw [List.foldl_cons] at h
    rcases ih (scanStep p i used acc jq) c s h with hacc | hprops
    · rcases scanStep_cases p i used acc jq with heq | ⟨hu, hgd, hgo, _, heq⟩
      · rw [heq] at hacc
        exact Or.inl hacc
      · rw [heq] at hacc
        have hcs := Option.some.inj hacc
        have hc : c = ⟨i, jq.1, distR p jq.2, odiffR p jq.2⟩ :=
          (congrArg Prod.fst hcs).symm
        have hs : s = distR p jq.2 + odiffR p jq.2 * 20 :=
          (congrArg Prod.snd hcs).symm
        subst hc
        exact Or.inr ⟨rfl, hu, ⟨jq.2, by simp, rfl, rfl⟩, hgd, hgo, hs⟩
    · obtain ⟨hi, hu, ⟨q, hq, hd, ho⟩, hgd, hgo, hs⟩ := hprops
      exact Or.inr ⟨hi, hu, ⟨q, by simp [hq], hd, ho⟩, hgd, hgo, hs⟩

theorem scan_candidates_sound {p : Minutia} {i : ℕ} {bs : List (ℕ × Minutia)}
    {used : List ℕ} {c : Corr} {s : ℝ}
    (h : scan_candidates p i bs used = some (c, s)) :
    c.i = i ∧ c.j ∉ used
      ∧ (∃ q, (c.j, q) ∈ bs ∧ c.distance = distR p q ∧ c.odiff = odiffR p q)
      ∧ c.distance ≤ max_distance_threshold ∧ c.odiff ≤ orientation_tolerance
      ∧ s = c.distance + c.odiff * 20 := by
  rcases scanFold_sound p i used bs none c s h with hacc | hprops
  · exact absurd hacc (by simp)
  · exact hprops

theorem scanFold_min (p : Minutia) (i : ℕ) (used : List ℕ) :
    ∀ (bs : List (ℕ × Minutia)) (acc : Option (Corr × ℝ)) (c : Corr) (s : ℝ),
    bs.foldl (scanStep p i used) acc = some (c, s) →
    (∀ jq ∈ bs, jq.1 ∉ used → distR p jq.2 ≤ max_distance_threshold →
       odiffR p jq.2 ≤ orientation_tolerance →
       s ≤ distR p jq.2 + odiffR p jq.2 * 20)
    ∧ (∀ c0 s0, acc = some (c0, s0) → s ≤ s0) := by
  intro bs
  induction bs with
  | nil =>
    intro acc c s h
    refine ⟨by simp, ?_⟩
    intro c0 s0 hacc
    rw [List.foldl_nil] at h
    rw [hacc] at h
    exact le_of_eq (congrArg Prod.snd (Option.some.inj h)).symm
  | cons jq t ih =>
    intro acc c s h
    rw [List.foldl_cons] at h
    obtain ⟨hcover, hbound⟩ := ih (scanStep p i used acc jq) c s h
    constructor
    · intro jq2 hjq2 hu2 hd2 ho2
      rw [List.mem_cons] at hjq2
      rcases hjq2 with rfl | hjq2
      · by_cases h4 : ∀ b ∈ acc, distR p jq2.2 + odiffR p jq2.2 * 20 < b.2
        · have hstep : scanStep p i used acc jq2
              = some (⟨i, jq2.1, distR p jq2.2, odiffR p jq2.2⟩,
                  distR p jq2.2 + odiffR p jq2.2 * 20) := by
            unfold scanStep
            rw [if_neg hu2, if_neg (not_lt.mpr hd2), if_neg (not_lt.mpr ho2), if_pos h4]
          exact hbound _ _ hstep
        · have hstep : scanStep p i used acc jq2 = acc := by
            unfold scanStep
            rw [if_neg hu2, if_neg (not_lt.mpr hd2), if_neg (not_lt.mpr ho2), if_neg h4]
          push_neg at h4
          obtain ⟨b, hbmem, hble⟩ := h4
          have hacc : acc = some b := Option.mem_def.mp hbmem
          have hsb : s ≤ b.2 := hbound b.1 b.2 (by rw [hstep, hacc])
          linarith
      · exact hcover jq2 hjq2 hu2 hd2 ho2
    · intro c0 s0 hacc
      rcases scanStep_cases p i used acc jq with heq | ⟨_, _, _, hlt, heq⟩
      · exact hbound c0 s0 (by rw [heq, hacc])
      · have hs := hbound _ _ heq
        rw [hacc] at hlt
        have hlt2 := hlt (c0, s0) (by simp)
        calc s ≤ _ := hs
        _ ≤ s0 := le_of_lt hlt2

theorem scan_candidates_min {p : Minutia} {i : ℕ} {bs : List (ℕ × Minutia)}
    {used : List ℕ} {c : Corr} {s : ℝ}
    (h : scan_candidates p i bs used = some (c, s)) :
    ∀ jq ∈ bs, jq.1 ∉ used → distR p jq.2 ≤ max_distance_threshold →
      odiffR p jq.2 ≤ orientation_tolerance →
      s ≤ distR p jq.2 + odiffR p jq.2 * 20 :=
  (scanFold_min p i used bs none c s h).1

theorem scanFold_keep_zero (p : Minutia) (i : ℕ) (used : List ℕ) (c : Corr) :
    ∀ bs : List (ℕ × Minutia),
    bs.foldl (scanStep p i used) (some (c, 0)) = some (c, 0) := by
  intro bs
  induction bs with
  | nil => rfl
  | cons jq t ih =>
    rw [List.foldl_cons]
    have hstep : scanStep p i used (some (c, 0)) jq = some (c, 0) := by
      rcases scanStep_cases p i used (some (c, 0)) jq with heq | ⟨_, _, _, hlt, _⟩
      · exact heq
      · exfalso
        have := hlt (c, 0) (by simp)
        have hd := distR_nonneg p jq.2
        have ho := odiffR_nonneg p jq.2
        simp only at this
        nlinarith
    rw [hstep, ih]

theorem scanFold_skip (p : Minutia) (i : ℕ) (used : List ℕ) :
    ∀ (bs : List (ℕ × Minutia)) (acc : Option (Corr × ℝ)),
    (∀ jq ∈ bs, jq.1 ∈ used) → bs.foldl (scanStep p i used) acc = acc := by
  intro bs
  induction bs with
  | nil => intro acc _; rfl
  | cons jq t ih =>
    intro acc hall
    rw [List.foldl_cons]
    have hstep : scanStep p i used acc jq = acc := by
      unfold scanStep
      rw [if_pos (hall jq (by simp))]
    rw [hstep]
    exact ih acc (fun x hx => hall x (by simp [hx]))

/-- The inner scan of a self-match: for point `k` of `M` against the
enumerated `M` with indices `0..k-1` claimed, the chosen correspondence
is `(k, k)` at distance 0 and orientation difference 0 with score 0. -/
theorem scan_self {M : List Minutia} {k : ℕ} {p : Minutia}
    (hk : M.get? k = some p) :
    scan_candidates p k M.enum (List.range k) = some (⟨k, k, 0, 0⟩, 0) := by
  have hklen : k < M.length := by
    by_contra hc
    rw [List.get?_eq_none.mpr (by omega)] at hk
    exact Option.noConfusion hk
  have hsplit : M = M.take k ++ p :: M.drop (k + 1) := by
    conv_lhs => rw [← List.take_append_drop k M]
    congr 1
    rw [List.drop_eq_get_cons hklen]
    congr 1
    have := List.get?_eq_get hklen
    rw [hk] at this
    exact (Option.some.inj this.symm)
  have htklen : (M.take k).length = k := List.length_take_of_le (by omega)
  have henum : M.enum = (M.take k).enum
      ++ ((k, p) :: (M.drop (k + 1)).enumFrom (k + 1)) := by
    conv_lhs => rw [hsplit]
    rw [show (M.take k ++ p :: M.drop (k + 1)).enum
        = (M.take k).enum ++ (p :: M.drop (k + 1)).enumFrom (M.take k).length from
      List.enum_append _ _]
    rw [htklen]
    rfl
  unfold scan_candidates
  rw [henum, List.foldl_append]
  have hpre : ((M.take k).enum).foldl (scanStep p k (List.range k)) none = none := by
    apply scanFold_skip
    intro jq hjq
    rw [List.mem_range]
    have := List.fst_lt_add_of_mem_enumFrom hjq
    simpa [htklen] using this
  rw [hpre, List.foldl_cons]
  have hstep : scanStep p k (List.range k) none (k, p) = some (⟨k, k, 0, 0⟩, 0) := by
    unfold scanStep
    rw [if_neg (by simp [List.mem_range]), distR_self, odiffR_self]
    rw [if_neg (by norm_num [max_distance_threshold]),
      if_neg (by norm_num [orientation_tolerance]),
      if_pos (by simp)]
    norm_num
  rw [hstep]
  exact scanFold_keep_zero p k (List.range k) ⟨k, k, 0, 0⟩ _

/-- The outer loop of a self-match produces the diagonal
correspondence list. -/
theorem corrFold_self (M : List Minutia) :
    ∀ (rest : List Minutia) (k : ℕ), rest = M.drop k → k ≤ M.length →
    (rest.enumFrom k).foldl (corrStep M.enum) (diagCorrs k, List.range k)
      = (diagCorrs M.length, List.range M.length) := by
  intro rest
  induction rest with
  | nil =>
    intro k hdrop hk
    have hlen : M.length ≤ k := List.drop_eq_nil_iff_le.mp hdrop.symm
    have : k = M.length := by omega
    subst this
    rfl
  | cons p rest' ih =>
    intro k hdrop hk
    have hget : M.get? k = some p := by
      have h0 : (M.drop k).get? 0 = some p := by rw [← hdrop]; rfl
      rwa [List.get?_drop, Nat.add_zero] at h0
    have hklen : k < M.length := by
      by_contra hc
      rw [List.get?_eq_none.mpr (by omega)] at hget
      exact Option.noConfusion hget
    have hrest' : rest' = M.drop (k + 1) := by
      have : (p :: rest').drop 1 = (M.drop k).drop 1 := by rw [hdrop]
      simpa [List.drop_drop] using this
    rw [show (p :: rest').enumFrom k = (k, p) :: rest'.enumFrom (k + 1) from rfl,
      List.foldl_cons]
    have hstep : corrStep M.enum (diagCorrs k, List.range k) (k, p)
        = (diagCorrs (k + 1), List.range (k + 1)) := by
      unfold corrStep
      rw [show scan_candidates (k, p).2 (k, p).1 M.enum (diagCorrs k, List.range k).2
          = some (⟨k, k, 0, 0⟩, 0) from scan_self hget]
      show (diagCorrs k ++ [⟨k, k, 0, 0⟩], List.range k ++ [k]) = _
      rw [show diagCorrs (k + 1) = diagCorrs k ++ [⟨k, k, 0, 0⟩] by
          unfold diagCorrs
          rw [List.range_succ, List.map_append]
          rfl,
        List.range_succ]
    rw [hstep]
    exact ih (k + 1) hrest' (by omega)

theorem find_self (M : List Minutia) :
    find_minutiae_correspondences M M = diagCorrs M.length := by
  unfold find_minutiae_correspondences
  exact congrArg Prod.fst (corrFold_self M M 0 rfl (by omega))

theorem diagCorrs_length (n : ℕ) : (diagCorrs n).length = n := by
  unfold diagCorrs
  simp

/-- Self-match confidence is exactly 1. -/
theorem conf_self {M : List Minutia} (hne : M ≠ []) :
    calculate_match_confidence M M = 1 := by
  have hn : 0 < M.length := List.length_pos.mpr hne
  have hne2 : diagCorrs M.length ≠ [] := by
    intro hc
    have := diagCorrs_length M.length
    rw [hc] at this
    simp at this
    omega
  have hnR : ((M.length : ℕ) : ℝ) ≠ 0 := Nat.cast_ne_zero.mpr (by omega)
  unfold calculate_match_confidence
  rw [if_neg (by simp [hne]), find_self M]
  rw [if_neg hne2]
  simp only [diagCorrs_length, Nat.max_self]
  have hdsum : ((diagCorrs M.length).map
      (fun c => max 0 (1 - c.distance / max_distance_threshold))).sum
      = (M.length : ℝ) := by
    unfold diagCorrs
    rw [List.map_map]
    have : ((fun c => max 0 (1 - Corr.distance c / max_distance_threshold)) ∘
        fun t => (⟨t, t, 0, 0⟩ : Corr)) = fun _ => (1 : ℝ) := by
      funext t
      show max 0 (1 - 0 / max_distance_threshold) = 1
      norm_num
    rw [this, List.map_const', List.sum_replicate, List.length_range, nsmul_eq_mul,
      mul_one]
  have hosum : ((diagCorrs M.length).map
      (fun c => max 0 (1 - |c.odiff| / orientation_tolerance))).sum
      = (M.length : ℝ) := by
    unfold diagCorrs
    rw [List.map_map]
    have : ((fun c => max 0 (1 - |Corr.odiff c| / orientation_tolerance)) ∘
        fun t => (⟨t, t, 0, 0⟩ : Corr)) = fun _ => (1 : ℝ) := by
      funext t
      show max 0 (1 - |(0 : ℝ)| / orientation_tolerance) = 1
      norm_num [orientation_tolerance]
    rw [this, List.map_const', List.sum_replicate, List.length_range, nsmul_eq_mul,
      mul_one]
  rw [hdsum, hosum]
  rw [div_self hnR]
  split_ifs <;> norm_num

/-! ### Claims C2 and C3: confidence properties -/

/-- C2: matching a non-empty minutiae list against an exact copy of
itself pairs every point with its own index — the correspondence list
has the same length as the list — and the confidence is exactly 1; in
particular the single-point sets at `(10, 10)` with orientation 0 give
confidence 1, which clears the default match threshold. -/
theorem claim_c2_self_match (M : List Minutia) (hne : M ≠ []) :
    (find_minutiae_correspondences M M).length = M.length
    ∧ calculate_match_confidence M M = 1
    ∧ calculate_match_confidence [⟨10, 10, 0⟩] [⟨10, 10, 0⟩] = 1
    ∧ match_threshold ≤ calculate_match_confidence [⟨10, 10, 0⟩] [⟨10, 10, 0⟩] := by
  refine ⟨?_, conf_self hne, conf_self (by simp), ?_⟩
  · rw [find_self M, diagCorrs_length]
  · rw [conf_self (by simp)]
    norm_num [match_threshold]

/-- Witness for C2 at the single-point list. -/
theorem claim_c2_witness :
    (find_minutiae_correspondences [⟨10, 10, 0⟩] [⟨10, 10, 0⟩]).length = 1
    ∧ calculate_match_confidence [⟨10, 10, 0⟩] [⟨10, 10, 0⟩] = 1 := by
  have h := claim_c2_self_match [⟨10, 10, 0⟩] (by simp)
  exact ⟨h.1, h.2.1⟩

/-- C3: the match confidence of any two minutiae lists lies in
`[0, 1]`, and it is 0 whenever either list is empty. -/
theorem claim_c3_confidence_bounds (m1 m2 : List Minutia) :
    0 ≤ calculate_match_confidence m1 m2
    ∧ calculate_match_confidence m1 m2 ≤ 1
    ∧ (m1 = [] ∨ m2 = [] → calculate_match_confidence m1 m2 = 0) := by
  unfold calculate_match_confidence
  by_cases hemp : m1 = [] ∨ m2 = []
  · rw [if_pos hemp]
    exact ⟨le_refl 0, by norm_num, fun _ => rfl⟩
  · rw [if_neg hemp]
    dsimp only
    refine ⟨?_, ?_, fun h => absurd h hemp⟩
    · split_ifs with h1 h2 h3
      · exact le_refl 0
      all_goals {
        refine le_min ?_ (by norm_num)
        have hmc : (0 : ℝ) ≤ ((find_minutiae_correspondences m1 m2).length : ℕ) := by
          positivity
        have htot : (0 : ℝ) ≤ ((max m1.length m2.length : ℕ) : ℝ) := by positivity
        have hdsum : (0 : ℝ) ≤ ((find_minutiae_correspondences m1 m2).map
            (fun c => max 0 (1 - c.distance / max_distance_threshold))).sum := by
          apply List.sum_nonneg
          intro x hx
          rw [List.mem_map] at hx
          obtain ⟨c, _, rfl⟩ := hx
          exact le_max_left 0 _
        have hosum : (0 : ℝ) ≤ ((find_minutiae_correspondences m1 m2).map
            (fun c => max 0 (1 - |c.odiff| / orientation_tolerance))).sum := by
          apply List.sum_nonneg
          intro x hx
          rw [List.mem_map] at hx
          obtain ⟨c, _, rfl⟩ := hx
          exact le_max_left 0 _
        have hb1 : (0 : ℝ) ≤ ((find_minutiae_correspondences m1 m2).length : ℕ)
            / ((max m1.length m2.length : ℕ) : ℝ) := div_nonneg hmc htot
        have hb2 : (0 : ℝ) ≤ ((find_minutiae_correspondences m1 m2).map
            (fun c => max 0 (1 - c.distance / max_distance_threshold))).sum
            / ((find_minutiae_correspondences m1 m2).length : ℕ) := div_nonneg hdsum hmc
        have hb3 : (0 : ℝ) ≤ ((find_minutiae_correspondences m1 m2).map
            (fun c => max 0 (1 - |c.odiff| / orientation_tolerance))).sum
            / ((find_minutiae_correspondences m1 m2).length : ℕ) := div_nonneg hosum hmc
        nlinarith
      }
    · split_ifs <;> norm_num

/-- Witness for C3 at an empty first list. -/
theorem claim_c3_witness :
    calculate_match_confidence [] [⟨1, 1, 0⟩] = 0 :=
  (claim_c3_confidence_bounds [] [⟨1, 1, 0⟩]).2.2 (Or.inl rfl)

/-! ### The outer correspondence loop: invariants -/

theorem nodup_bound_length {l : List ℕ} {n : ℕ} (h : l.Nodup) (hb : ∀ x ∈ l, x < n) :
    l.length ≤ n := by
  have hcard : l.toFinset.card = l.length := List.toFinset_card_of_nodup h
  have hsub : l.toFinset ⊆ Finset.range n := by
    intro x hx
    rw [List.mem_toFinset] at hx
    rw [Finset.mem_range]
    exact hb x hx
  have := Finset.card_le_card hsub
  rw [hcard, Finset.card_range] at this
  exact this

theorem mem_enum_bound {α : Type} {l : List α} {n : ℕ} {x : α} (h : (n, x) ∈ l.enum) :
    n < l.length ∧ l.get? n = some x := by
  have h2 := List.mem_enumFrom h
  simp at h2
  obtain ⟨h3, h4⟩ := h2
  refine ⟨h3, ?_⟩
  rw [List.get?_eq_get h3]
  exact congrArg some h4.symm

/-- The outer loop of `_find_minutiae_correspondences` preserves
`corrInv` and adds at most one correspondence per point of A. -/
theorem corrFold_inv (as bs : List Minutia) :
    ∀ (rest : List Minutia) (k : ℕ) (st : List Corr × List ℕ),
    rest = as.drop k → corrInv as bs k st →
    corrInv as bs (k + rest.length) ((rest.enumFrom k).foldl (corrStep bs.enum) st)
    ∧ ((rest.enumFrom k).foldl (corrStep bs.enum) st).1.length
        ≤ st.1.length + rest.length := by
  intro rest
  induction rest with
  | nil =>
    intro k st _ hinv
    refine ⟨?_, by simp⟩
    simpa using hinv
  | cons p rest' ih =>
    intro k st hdrop hinv
    have hget : as.get? k = some p := by
      have h0 : (as.drop k).get? 0 = some p := by rw [← hdrop]; rfl
      rwa [List.get?_drop, Nat.add_zero] at h0
    have hrest' : rest' = as.drop (k + 1) := by
      have hd1 : (p :: rest').drop 1 = (as.drop k).drop 1 := by rw [hdrop]
      simpa [List.drop_drop] using hd1
    obtain ⟨h1, h2, h3, h4, h5, h6, h7⟩ := hinv
    rw [show (p :: rest').enumFrom k = (k, p) :: rest'.enumFrom (k + 1) from rfl,
      List.foldl_cons]
    have hbd : k + (p :: rest').length = (k + 1) + rest'.length := by
      simp [List.length_cons]; omega
    cases hscan : scan_candidates p k bs.enum st.2 with
    | none =>
      have hstep : corrStep bs.enum st (k, p) = st := by
        unfold corrStep
        rw [show scan_candidates (k, p).2 (k, p).1 bs.enum st.2 = none from hscan]
      rw [hstep]
      have hinv2 : corrInv as bs (k + 1) st :=
        ⟨h1, h2, h3, fun c hc => Nat.lt_succ_of_lt (h4 c hc), h5, h6, h7⟩
      obtain ⟨ha, hb⟩ := ih (k + 1) st hrest' hinv2
      exact ⟨by rw [hbd]; exact ha, by simp [List.length_cons]; omega⟩
    | some cs =>
      obtain ⟨c, s⟩ := cs
      obtain ⟨hik, hju, ⟨q, hq, hd, ho⟩, hgd, hgo, hs⟩ := scan_candidates_sound hscan
      have hstep : corrStep bs.enum st (k, p) = (st.1 ++ [c], st.2 ++ [c.j]) := by
        unfold corrStep
        rw [show scan_candidates (k, p).2 (k, p).1 bs.enum st.2
            = some (c, s) from hscan]
      rw [hstep]
      have hjlen : c.j < bs.length := (mem_enum_bound hq).1
      have hqget : bs.get? c.j = some q := (mem_enum_bound hq).2
      have hinotin : c.i ∉ st.1.map Corr.i := by
        rw [hik]
        intro hmem
        rw [List.mem_map] at hmem
        obtain ⟨c2, hc2, he⟩ := hmem
        have := h4 c2 hc2
        omega
      have hjnotin : c.j ∉ st.1.map Corr.j := by
        rw [← h1]
        exact hju
      have hinv2 : corrInv as bs (k + 1) (st.1 ++ [c], st.2 ++ [c.j]) := by
        refine ⟨?_, ?_, ?_, ?_, ?_, ?_, ?_⟩
        · show st.2 ++ [c.j] = (st.1 ++ [c]).map Corr.j
          rw [List.map_append, h1]
          simp
        · rw [List.map_append]
          simp only [List.map_cons, List.map_nil]
          rw [List.nodup_append]
          refine ⟨h2, List.nodup_singleton _, ?_⟩
          intro a ha hb
          simp at hb
          rw [hb] at ha
          exact hinotin ha
        · rw [List.map_append]
          simp only [List.map_cons, List.map_nil]
          rw [List.nodup_append]
          refine ⟨h3, List.nodup_singleton _, ?_⟩
          intro a ha hb
          simp at hb
          rw [hb] at ha
          exact hjnotin ha
        · intro c2 hc2
          rw [List.mem_append] at hc2
          rcases hc2 with hc2 | hc2
          · exact Nat.lt_succ_of_lt (h4 c2 hc2)
          · simp at hc2
            subst hc2
            omega
        · intro c2 hc2
          rw [List.mem_append] at hc2
          rcases hc2 with hc2 | hc2
          · exact h5 c2 hc2
          · simp at hc2
            subst hc2
            exact hjlen
        · intro c2 hc2
          rw [List.mem_append] at hc2
          rcases hc2 with hc2 | hc2
          · exact h6 c2 hc2
          · simp at hc2
            subst hc2
            exact ⟨⟨p, q, by rw [hik]; exact hget, hqget, hd, ho⟩, hgd, hgo⟩
        · intro n c2 hn p2 hp2 jq hjq hnotin hgd2 hgo2
          by_cases hlt : n < st.1.length
          · rw [List.get?_append hlt] at hn
            rw [List.take_append_of_le_length (le_of_lt hlt)] at hnotin
            exact h7 n c2 hn p2 hp2 jq hjq hnotin hgd2 hgo2
          · have hn2 : n = st.1.length := by
              by_contra hne
              have hge : (st.1 ++ [c]).length ≤ n := by
                rw [List.length_append, List.length_cons, List.length_nil]
                omega
              rw [List.get?_eq_none.mpr hge] at hn
              exact Option.noConfusion hn
            subst hn2
            rw [List.get?_concat_length] at hn
            have hc2 : c = c2 := Option.some.inj hn
            subst hc2
            rw [show (st.1 ++ [c]).take st.1.length = st.1 from List.take_left st.1 [c]]
              at hnotin
            rw [← h1] at hnotin
            have hp2p : p2 = p := by
              rw [hik] at hp2
              rw [hp2] at hget
              exact Option.some.inj hget
            subst hp2p
            have hmin := scan_candidates_min hscan jq hjq hnotin hgd2 hgo2
            show corrScore c ≤ _
            unfold corrScore
            rw [← hs]
            exact hmin
      obtain ⟨ha, hb⟩ := ih (k + 1) (st.1 ++ [c], st.2 ++ [c.j]) hrest' hinv2
      refine ⟨by rw [hbd]; exact ha, ?_⟩
      have hlen2 : (st.1 ++ [c], st.2 ++ [c.j]).1.length = st.1.length + 1 := by simp
      rw [hlen2] at hb
      simp [List.length_cons]
      omega

/-- The output contract of `_find_minutiae_correspondences`:
duplicate-free index projections, soundness and greedy minimality of
every entry, and the one-to-one length bound. -/
theorem find_props (as bs : List Minutia) :
    ((find_minutiae_correspondences as bs).map Corr.i).Nodup
    ∧ ((find_minutiae_correspondences as bs).map Corr.j).Nodup
    ∧ (∀ c ∈ find_minutiae_correspondences as bs, corrSound as bs c)
    ∧ corrGreedy as bs (find_minutiae_correspondences as bs)
    ∧ (find_minutiae_correspondences as bs).length ≤ min as.length bs.length := by
  have hinit : corrInv as bs 0 ([], []) := by
    refine ⟨rfl, List.nodup_nil, List.nodup_nil, by simp, by simp, by simp, ?_⟩
    intro n c hn
    exact absurd hn (by simp)
  obtain ⟨⟨g1, g2, g3, g4, g5, g6, g7⟩, glen⟩ := corrFold_inv as bs as 0 ([], []) rfl hinit
  have hfix : (as.enumFrom 0).foldl (corrStep bs.enum) ([], [])
      = as.enum.foldl (corrStep bs.enum) ([], []) := rfl
  rw [hfix] at g2 g3 g5 g6 g7 glen
  refine ⟨g2, g3, g6, g7, ?_⟩
  refine le_min ?_ ?_
  · have : (find_minutiae_correspondences as bs).length ≤ 0 + as.length := glen
    omega
  · have hjn : ((find_minutiae_correspondences as bs).map Corr.j).Nodup := g3
    have hjb : ∀ x ∈ (find_minutiae_correspondences as bs).map Corr.j, x < bs.length := by
      intro x hx
      rw [List.mem_map] at hx
      obtain ⟨c, hc, rfl⟩ := hx
      exact g5 c hc
    have := nodup_bound_length hjn hjb
    rwa [List.length_map] at this

/-- In the C4 scenario the single candidate pairing is rejected by the
distance gate. -/
theorem far_gate :
    max_distance_threshold < distR ⟨0, 0, 0⟩ ⟨100, 100, 0⟩ := by
  unfold max_distance_threshold distR
  rw [show (((0:ℝ) - 100) ^ 2 + ((0:ℝ) - 100) ^ 2) = 20000 by norm_num]
  rw [show (50:ℝ) = Real.sqrt 2500 by
    rw [show (2500:ℝ) = 50 ^ 2 by norm_num, Real.sqrt_sq (by norm_num)]]
  exact Real.sqrt_lt_sqrt (by norm_num) (by norm_num)

theorem find_far :
    find_minutiae_correspondences [⟨0, 0, 0⟩] [⟨100, 100, 0⟩] = [] := by
  unfold find_minutiae_correspondences
  rw [show ([(⟨0, 0, 0⟩ : Minutia)]).enum = [(0, ⟨0, 0, 0⟩)] from rfl,
    List.foldl_cons, List.foldl_nil]
  have hscan : scan_candidates ⟨0, 0, 0⟩ 0 ([(⟨100, 100, 0⟩ : Minutia)]).enum [] = none := by
    unfold scan_candidates
    rw [show ([(⟨100, 100, 0⟩ : Minutia)]).enum = [(0, ⟨100, 100, 0⟩)] from rfl,
      List.foldl_cons, List.foldl_nil]
    unfold scanStep
    rw [if_neg (by simp), if_pos far_gate]
  show (corrStep ([(⟨100, 100, 0⟩ : Minutia)]).enum ([], []) (0, ⟨0, 0, 0⟩)).1 = []
  unfold corrStep
  rw [show scan_candidates ((0 : ℕ), (⟨0, 0, 0⟩ : Minutia)).2 ((0 : ℕ), (⟨0, 0, 0⟩ : Minutia)).1
      ([(⟨100, 100, 0⟩ : Minutia)]).enum (([], []) : List Corr × List ℕ).2 = none from hscan]

theorem conf_far :
    calculate_match_confidence [⟨0, 0, 0⟩] [⟨100, 100, 0⟩] = 0 := by
  unfold calculate_match_confidence
  rw [if_neg (by simp), find_far]
  simp

/-- C4: the correspondence search is the stated greedy algorithm —
every returned correspondence joins real points of the two lists,
records their true distance and orientation difference, passes the
distance and orientation gates, and is score-minimal among the B
points unclaimed when it was chosen; chosen B indices are never
reused; and in the far-apart scenario no correspondence is formed and
the confidence is 0. -/
theorem claim_c4_greedy_search (as bs : List Minutia) :
    (∀ c ∈ find_minutiae_correspondences as bs, corrSound as bs c)
    ∧ corrGreedy as bs (find_minutiae_correspondences as bs)
    ∧ ((find_minutiae_correspondences as bs).map Corr.j).Nodup
    ∧ find_minutiae_correspondences [⟨0, 0, 0⟩] [⟨100, 100, 0⟩] = []
    ∧ calculate_match_confidence [⟨0, 0, 0⟩] [⟨100, 100, 0⟩] = 0 := by
  obtain ⟨_, hj, hsound, hgreedy, _⟩ := find_props as bs
  exact ⟨hsound, hgreedy, hj, find_far, conf_far⟩

/-- Witness for C4: the far-apart scenario, via the claim theorem. -/
theorem claim_c4_witness :
    find_minutiae_correspondences [⟨0, 0, 0⟩] [⟨100, 100, 0⟩] = []
    ∧ calculate_match_confidence [⟨0, 0, 0⟩] [⟨100, 100, 0⟩] = 0 :=
  (claim_c4_greedy_search [] []).2.2.2

/-- C5: the returned pairing is one-to-one — no A index and no B index
occurs twice — so its size never exceeds the smaller input size. -/
theorem claim_c5_one_to_one (as bs : List Minutia) :
    ((find_minutiae_correspondences as bs).map Corr.i).Nodup
    ∧ ((find_minutiae_correspondences as bs).map Corr.j).Nodup
    ∧ (find_minutiae_correspondences as bs).length ≤ min as.length bs.length := by
  obtain ⟨hi, hj, _, _, hlen⟩ := find_props as bs
  exact ⟨hi, hj, hlen⟩

/-- Witness for C5 at singleton inputs. -/
theorem claim_c5_witness :
    (find_minutiae_correspondences [⟨10, 10, 0⟩] [⟨10, 10, 0⟩]).length ≤ 1 := by
  have h := (claim_c5_one_to_one [⟨10, 10, 0⟩] [⟨10, 10, 0⟩]).2.2
  simpa using h

/-! ### Claim C10: the input guard of match_fingerprint -/

/-- C10: whatever the candidate list, `match_fingerprint` returns
`None` without touching any candidate when the input template fails to
decode, when it decodes to falsy data, or when it decodes to an object
whose `minutiae` field is missing or falsy. -/
theorem claim_c10_input_guard (templates : List Candidate) :
    (∀ input, decode_template input = none → match_fingerprint input templates = none)
    ∧ (∀ input d, decode_template input = some d → truthy d = false →
        match_fingerprint input templates = none)
    ∧ (∀ input kvs, decode_template input = some (Json.obj kvs) →
        truthy (getFieldD kvs keyMinutiae (Json.arr [])) = false →
        match_fingerprint input templates = none) := by
  refine ⟨?_, ?_, ?_⟩
  · intro input h
    unfold match_fingerprint
    rw [h]
  · intro input d h ht
    unfold match_fingerprint
    rw [h]
    exact if_pos ht
  · intro input kvs h ht
    unfold match_fingerprint
    rw [h]
    by_cases htr : truthy (Json.obj kvs) = false
    · exact if_pos htr
    · exact (if_neg htr).trans (if_pos ht)

/-- Witness for C10: an input that is not valid base64. -/
theorem claim_c10_witness :
    match_fingerprint (("@@@@" : String)).toList [⟨some sidA, some goodChars⟩] = none :=
  (claim_c10_input_guard [⟨some sidA, some goodChars⟩]).1 (("@@@@" : String)).toList rfl

/-! ### Claim C8: skipped candidates -/

/-- A candidate in one of the skip cases leaves the loop state
unchanged and does not raise. -/
theorem stepCand_skip {b : Candidate} (h : skippedCand b) (mv : Json)
    (st : Option (List Char × ℝ) × ℝ) : stepCand mv st b = some st := by
  unfold stepCand
  cases hsid : b.studentId with
  | none => rfl
  | some sid =>
    cases htm : b.template with
    | none => rfl
    | some t =>
      dsimp only
      by_cases he : sid = [] ∨ t = []
      · exact if_pos he
      · rw [if_neg he]
        push_neg at he
        rcases h sid t hsid htm he.1 he.2 with hd | ⟨d, hd, htr⟩ | ⟨kvs, hd, hmv⟩
        · rw [hd]
        · rw [hd]
          exact if_pos htr
        · rw [hd]
          by_cases htr : truthy (Json.obj kvs) = false
          · exact if_pos htr
          · exact (if_neg htr).trans (if_pos hmv)

/-- Removing a skipped candidate anywhere in the list leaves the
candidate loop unchanged. -/
theorem loopCands_remove {b : Candidate} (h : skippedCand b) (mv : Json) :
    ∀ (pre post : List Candidate) (st : Option (List Char × ℝ) × ℝ),
    loopCands mv (pre ++ b :: post) st = loopCands mv (pre ++ post) st := by
  intro pre
  induction pre with
  | nil =>
    intro post st
    show loopCands mv (b :: post) st = loopCands mv post st
    rw [show loopCands mv (b :: post) st
        = (match stepCand mv st b with
           | none => none
           | some st2 => loopCands mv post st2) from rfl]
    rw [stepCand_skip h mv st]
  | cons c pre2 ih =>
    intro post st
    show loopCands mv (c :: (pre2 ++ b :: post)) st = loopCands mv (c :: (pre2 ++ post)) st
    rw [show loopCands mv (c :: (pre2 ++ b :: post)) st
        = (match stepCand mv st c with
           | none => none
           | some st2 => loopCands mv (pre2 ++ b :: post) st2) from rfl,
      show loopCands mv (c :: (pre2 ++ post)) st
        = (match stepCand mv st c with
           | none => none
           | some st2 => loopCands mv (pre2 ++ post) st2) from rfl]
    cases stepCand mv st c with
    | none => rfl
    | some st2 => exact ih post st2

/-- C8 amended: a candidate in the cases the claim calls skipped —
missing or empty id or template, undecodable template, falsy decoded
data, or missing/falsy minutiae — never changes the outcome: the
search on any list containing it equals the search on the list with it
removed. -/
theorem claim_c8_amended (input : List Char) (pre post : List Candidate)
    (b : Candidate) (h : skippedCand b) :
    match_fingerprint input (pre ++ b :: post) = match_fingerprint input (pre ++ post) := by
  unfold match_fingerprint
  cases hdec : decode_template input with
  | none => rfl
  | some d =>
    dsimp only
    by_cases htr : truthy d = false
    · simp only [if_pos htr]
    · simp only [if_neg htr]
      cases d with
      | null => rfl
      | bool b2 => rfl
      | num m e => rfl
      | str s => rfl
      | arr xs => rfl
      | obj kvs =>
        by_cases hmv : truthy (getFieldD kvs keyMinutiae (Json.arr [])) = false
        · simp only [if_pos hmv]
        · simp only [if_neg hmv]
          rw [loopCands_remove h _ pre post (none, 0)]

theorem goodChars_dec : decode_template goodChars = some (Json.obj tmplKvs) :=
  decode_encodeJson (by decide)

theorem badChars_dec : decode_template badChars = some (Json.arr [Json.num 1 0]) :=
  decode_encodeJson (by decide)

theorem confidence_minuJ : confidenceJson (Json.arr [minuJ]) (Json.arr [minuJ]) = 1 := by
  unfold confidenceJson
  rw [if_neg (by decide)]
  rw [show toMinutiae (Json.arr [minuJ]) = some [minuP] from rfl]
  exact conf_self (by simp)

/-- An encoded template string is never empty. -/
theorem encodeJson_ne_nil (j : Json) : encodeJson j ≠ [] := by
  unfold encodeJson
  obtain ⟨c, t, hd, _⟩ := dumps_head j
  rw [hd]
  rw [show strBytes (c :: t) = c.toNat :: strBytes t from rfl]
  cases ht : strBytes t with
  | nil => simp [b64encodeBytes]
  | cons b2 t2 =>
    cases t2 with
    | nil => simp [b64encodeBytes]
    | cons b3 t3 => simp [b64encodeBytes]

/-- The healthy candidate updates the empty running best to itself. -/
theorem stepCand_good :
    stepCand (Json.arr [minuJ]) (none, 0) goodCand = some (some (sidA, 1), 1) := by
  have hguard : ¬(sidA = [] ∨ goodChars = []) := by
    rintro (h | h)
    · exact absurd h (by decide)
    · exact encodeJson_ne_nil _ h
  unfold stepCand goodCand
  dsimp only
  rw [if_neg hguard, goodChars_dec]
  dsimp only
  rw [if_neg (by decide)]
  rw [show getFieldD tmplKvs keyMinutiae (Json.arr []) = Json.arr [minuJ] from rfl]
  rw [if_neg (by decide), confidence_minuJ]
  rw [if_pos ⟨by norm_num, by norm_num [match_threshold]⟩]

/-- The corrupt candidate makes the iteration raise. -/
theorem stepCand_bad (st : Option (List Char × ℝ) × ℝ) :
    stepCand (Json.arr [minuJ]) st badCand = none := by
  have hguard : ¬(sidB = [] ∨ badChars = []) := by
    rintro (h | h)
    · exact absurd h (by decide)
    · exact encodeJson_ne_nil _ h
  unfold stepCand badCand
  dsimp only
  rw [if_neg hguard, badChars_dec]
  dsimp only
  rw [if_neg (by decide)]

/-- The full search on the good candidate alone finds it. -/
theorem match_good_only :
    match_fingerprint goodChars [goodCand] = some (sidA, 1) := by
  unfold match_fingerprint
  rw [goodChars_dec]
  dsimp only
  rw [if_neg (by decide)]
  rw [show getFieldD tmplKvs keyMinutiae (Json.arr []) = Json.arr [minuJ] from rfl]
  rw [if_neg (by decide)]
  rw [show loopCands (Json.arr [minuJ]) [goodCand] (none, 0)
      = (match stepCand (Json.arr [minuJ]) (none, 0) goodCand with
         | none => none
         | some st2 => loopCands (Json.arr [minuJ]) [] st2) from rfl]
  rw [stepCand_good]
  rfl

/-- The full search aborts when the corrupt candidate is present. -/
theorem match_good_bad :
    match_fingerprint goodChars [goodCand, badCand] = none := by
  unfold match_fingerprint
  rw [goodChars_dec]
  dsimp only
  rw [if_neg (by decide)]
  rw [show getFieldD tmplKvs keyMinutiae (Json.arr []) = Json.arr [minuJ] from rfl]
  rw [if_neg (by decide)]
  rw [show loopCands (Json.arr [minuJ]) [goodCand, badCand] (none, 0)
      = (match stepCand (Json.arr [minuJ]) (none, 0) goodCand with
         | none => none
         | some st2 => loopCands (Json.arr [minuJ]) [badCand] st2) from rfl]
  rw [stepCand_good]
  show (match loopCands (Json.arr [minuJ]) [badCand] (some (sidA, 1), 1) with
    | none => none
    | some st => st.1) = none
  rw [show loopCands (Json.arr [minuJ]) [badCand] (some (sidA, 1), 1)
      = (match stepCand (Json.arr [minuJ]) (some (sidA, 1), 1) badCand with
         | none => none
         | some st2 => loopCands (Json.arr [minuJ]) [] st2) from rfl]
  rw [stepCand_bad]

/-- C8 counterexample: a stored candidate whose template decodes to a
truthy non-dict value does not merely get skipped — the raised
`AttributeError` aborts the whole search, so the list containing the
healthy matching candidate and the corrupt one yields no match while
the list without the corrupt one yields the match.  One corrupt
candidate does abort matching against the remaining candidates. -/
theorem claim_c8_counterexample :
    match_fingerprint goodChars [goodCand, badCand] = none
    ∧ match_fingerprint goodChars [goodCand] = some (sidA, 1) :=
  ⟨match_good_bad, match_good_only⟩

/-- Witness for C8 amended: removing a candidate whose template fails
to decode leaves the search result unchanged. -/
theorem claim_c8_witness :
    match_fingerprint goodChars [⟨some sidB, some (("@@@@" : String)).toList⟩, goodCand]
      = match_fingerprint goodChars [goodCand] :=
  claim_c8_amended goodChars [] [goodCand] ⟨some sidB, some (("@@@@" : String)).toList⟩
    (fun sid t _ ht _ _ => Or.inl (by
      have ht2 : (("@@@@" : String)).toList = t := Option.some.inj ht
      rw [← ht2]
      rfl))

/-! ### Claim C6: best-match selection -/

/-- A candidate that cannot raise steps exactly as the pure
threshold-gated strictly-greater update on its decoded pair. -/
theorem stepCand_ok {c : Candidate} (h : okCand c) (mv : Json)
    (st : Option (List Char × ℝ) × ℝ) :
    stepCand mv st c = some (stepPure st (candPair mv c)) := by
  unfold stepCand candPair
  cases hsid : c.studentId with
  | none => rfl
  | some sid =>
    cases htm : c.template with
    | none => rfl
    | some t =>
      dsimp only
      by_cases he : sid = [] ∨ t = []
      · rw [if_pos he, if_pos he]
        rfl
      · rw [if_neg he, if_neg he]
        cases hd : decode_template t with
        | none => rfl
        | some sd =>
          dsimp only
          by_cases htr : truthy sd = false
          · rw [if_pos htr, if_pos htr]
            rfl
          · rw [if_neg htr, if_neg htr]
            have htr2 : truthy sd = true := by
              revert htr
              cases truthy sd <;> simp
            obtain ⟨kvs, rfl⟩ := h t htm sd hd htr2
            dsimp only
            by_cases hmv : truthy (getFieldD kvs keyMinutiae (Json.arr [])) = false
            · rw [if_pos hmv, if_pos hmv]
              rfl
            · rw [if_neg hmv, if_neg hmv]
              rfl

/-- Over abort-free candidates the loop computes the pure fold. -/
theorem loopCands_ok (mv : Json) :
    ∀ (cs : List Candidate), (∀ c ∈ cs, okCand c) →
    ∀ st, loopCands mv cs st
      = some (cs.foldl (fun st2 c => stepPure st2 (candPair mv c)) st) := by
  intro cs
  induction cs with
  | nil => intro _ st; rfl
  | cons c t ih =>
    intro hok st
    rw [show loopCands mv (c :: t) st
        = (match stepCand mv st c with
           | none => none
           | some st2 => loopCands mv t st2) from rfl]
    rw [stepCand_ok (hok c (by simp)) mv st]
    rw [List.foldl_cons]
    exact ih (fun x hx => hok x (by simp [hx])) _

/-- The pure fold only moves on the surviving pairs. -/
theorem foldl_pairs (mv : Json) :
    ∀ (cs : List Candidate) (st : Option (List Char × ℝ) × ℝ),
    cs.foldl (fun st2 c => stepPure st2 (candPair mv c)) st
      = (validPairs mv cs).foldl (fun st2 p => stepPure st2 (some p)) st := by
  intro cs
  induction cs with
  | nil => intro st; rfl
  | cons c t ih =>
    intro st
    rw [List.foldl_cons]
    unfold validPairs
    rw [List.filterMap_cons]
    cases hp : candPair mv c with
    | none => exact ih _
    | some p =>
      rw [List.foldl_cons]
      exact ih _

/-- `bestMatchSpec`, unfolded. -/
theorem bms_eq (pairs : List (List Char × ℝ)) :
    bestMatchSpec pairs
      = match ((pairs.filter (fun p => decide (match_threshold ≤ p.2))).map Prod.snd).max? with
        | none => none
        | some mval => (pairs.filter (fun p => decide (match_threshold ≤ p.2))).find?
            (fun p => decide (p.2 = mval)) := rfl

theorem foldl_max_facts (t : List ℝ) :
    ∀ acc : ℝ, acc ≤ t.foldl max acc ∧ ∀ x ∈ t, x ≤ t.foldl max acc := by
  induction t with
  | nil => intro acc; exact ⟨le_refl _, by simp⟩
  | cons b t2 ih =>
    intro acc
    rw [List.foldl_cons]
    obtain ⟨h1, h2⟩ := ih (max acc b)
    refine ⟨le_trans (le_max_left acc b) h1, ?_⟩
    intro x hx
    rcases List.mem_cons.mp hx with rfl | hx2
    · exact le_trans (le_max_right acc x) h1
    · exact h2 x hx2

theorem max?_le_of_mem {l : List ℝ} {m x : ℝ} (hm : l.max? = some m) (hx : x ∈ l) :
    x ≤ m := by
  cases l with
  | nil => exact absurd hx (by simp)
  | cons a t =>
    have hm2 : t.foldl max a = m := Option.some.inj hm
    rcases List.mem_cons.mp hx with rfl | hx2
    · rw [← hm2]
      exact (foldl_max_facts t x).1
    · rw [← hm2]
      exact (foldl_max_facts t a).2 x hx2

theorem max?_concat (l : List ℝ) (a : ℝ) :
    (l ++ [a]).max? = some (match l.max? with | none => a | some m => max m a) := by
  cases l with
  | nil => rfl
  | cons b t =>
    show ((b :: t) ++ [a]).max? = some (max (t.foldl max b) a)
    rw [show ((b :: t) ++ [a]).max? = some ((t ++ [a]).foldl max b) from rfl]
    rw [List.foldl_append]
    rfl

/-- A non-empty qualifying set always yields a best match. -/
theorem bms_qual_ne {l : List (List Char × ℝ)}
    (hne : l.filter (fun p => decide (match_threshold ≤ p.2)) ≠ []) :
    ∃ b, bestMatchSpec l = some b := by
  rw [bms_eq]
  cases hmax : ((l.filter (fun p => decide (match_threshold ≤ p.2))).map Prod.snd).max? with
  | none =>
    exact absurd (List.map_eq_nil_iff.mp (List.max?_eq_none_iff.mp hmax)) hne
  | some m =>
    have hmem := List.max?_mem (fun a b => max_choice a b) hmax
    rw [List.mem_map] at hmem
    obtain ⟨x, hx, hxm⟩ := hmem
    cases hf : (l.filter (fun p => decide (match_threshold ≤ p.2))).find?
        (fun p => decide (p.2 = m)) with
    | none => exact absurd (decide_eq_true hxm) (List.find?_eq_none.mp hf x hx)
    | some b => exact ⟨b, hf⟩

theorem bms_none_qual {l : List (List Char × ℝ)} (h : bestMatchSpec l = none) :
    l.filter (fun p => decide (match_threshold ≤ p.2)) = [] := by
  by_contra hne
  obtain ⟨b, hb⟩ := bms_qual_ne hne
  rw [h] at hb
  exact Option.noConfusion hb

theorem bms_some_props {l : List (List Char × ℝ)} {b : List Char × ℝ}
    (h : bestMatchSpec l = some b) :
    ((l.filter (fun p => decide (match_threshold ≤ p.2))).map Prod.snd).max? = some b.2
    ∧ (l.filter (fun p => decide (match_threshold ≤ p.2))).find?
        (fun p => decide (p.2 = b.2)) = some b
    ∧ match_threshold ≤ b.2
    ∧ ∀ x ∈ l.filter (fun p => decide (match_threshold ≤ p.2)), x.2 ≤ b.2 := by
  rw [bms_eq] at h
  cases hmax : ((l.filter (fun p => decide (match_threshold ≤ p.2))).map Prod.snd).max? with
  | none =>
    rw [hmax] at h
    exact Option.noConfusion h
  | some m =>
    rw [hmax] at h
    dsimp only at h
    have hfs := List.find?_some h
    have hbm : b.2 = m := of_decide_eq_true hfs
    subst hbm
    have hmem := List.mem_of_find?_eq_some h
    have hof := List.of_mem_filter hmem
    refine ⟨rfl, h, of_decide_eq_true hof, ?_⟩
    intro x hx
    exact max?_le_of_mem hmax (List.mem_map_of_mem Prod.snd hx)

/-- One pure step tracks the spec-side selection on a snoc. -/
theorem stepPure_bms (l : List (List Char × ℝ)) (p : List Char × ℝ) :
    stepPure (bestMatchSpec l, (bestMatchSpec l).elim 0 Prod.snd) (some p)
      = (bestMatchSpec (l ++ [p]), (bestMatchSpec (l ++ [p])).elim 0 Prod.snd) := by
  by_cases hp : match_threshold ≤ p.2
  case neg =>
    have hfil : (l ++ [p]).filter (fun q => decide (match_threshold ≤ q.2))
        = l.filter (fun q => decide (match_threshold ≤ q.2)) := by
      rw [List.filter_append]
      simp [hp]
    have hbms : bestMatchSpec (l ++ [p]) = bestMatchSpec l := by
      rw [bms_eq, bms_eq, hfil]
    rw [hbms]
    unfold stepPure
    dsimp only
    rw [if_neg (fun hc => hp hc.2)]
  case pos =>
    cases hb : bestMatchSpec l with
    | none =>
      have hq : l.filter (fun q => decide (match_threshold ≤ q.2)) = [] :=
        bms_none_qual hb
      have hfil : (l ++ [p]).filter (fun q => decide (match_threshold ≤ q.2)) = [p] := by
        rw [List.filter_append, hq, List.nil_append]
        simp [hp]
      have hbms : bestMatchSpec (l ++ [p]) = some p := by
        rw [bms_eq, hfil]
        rw [show (([p] : List (List Char × ℝ)).map Prod.snd).max? = some p.2 from rfl]
        dsimp only
        simp
      rw [hbms]
      unfold stepPure
      dsimp only
      rw [if_pos ⟨lt_of_lt_of_le (by norm_num [match_threshold]) hp, hp⟩]
      rfl
    | some b =>
      obtain ⟨hmax, hfind, hthr, hbound⟩ := bms_some_props hb
      have hfil : (l ++ [p]).filter (fun q => decide (match_threshold ≤ q.2))
          = l.filter (fun q => decide (match_threshold ≤ q.2)) ++ [p] := by
        rw [List.filter_append]
        simp [hp]
      by_cases hlt : b.2 < p.2
      · have hnone : (l.filter (fun q => decide (match_threshold ≤ q.2))).find?
            (fun q => decide (q.2 = p.2)) = none := by
          rw [List.find?_eq_none]
          intro x hx hdec
          have hb2 := hbound x hx
          have hxe : x.2 = p.2 := of_decide_eq_true hdec
          linarith
        have hbms : bestMatchSpec (l ++ [p]) = some p := by
          rw [bms_eq, hfil, List.map_append, List.map_cons, List.map_nil,
            max?_concat, hmax]
          dsimp only
          rw [max_eq_right (le_of_lt hlt)]
          rw [List.find?_append, hnone, Option.none_or]
          simp
        rw [hbms]
        unfold stepPure
        dsimp only
        rw [if_pos ⟨hlt, hp⟩]
        rfl
      · have hple : p.2 ≤ b.2 := le_of_not_lt hlt
        have hbms : bestMatchSpec (l ++ [p]) = some b := by
          rw [bms_eq, hfil, List.map_append, List.map_cons, List.map_nil,
            max?_concat, hmax]
          dsimp only
          rw [max_eq_left hple]
          rw [List.find?_append, hfind]
          rfl
        rw [hbms]
        unfold stepPure
        dsimp only
        rw [if_neg (fun hc => hlt hc.1)]

/-- The pure fold from the empty state computes the spec selection. -/
theorem fold_best (pairs : List (List Char × ℝ)) :
    pairs.foldl (fun st p => stepPure st (some p)) (none, 0)
      = (bestMatchSpec pairs, (bestMatchSpec pairs).elim 0 Prod.snd) := by
  induction pairs using List.reverseRecOn with
  | nil => rfl
  | append_singleton l p ih =>
    rw [List.foldl_append, List.foldl_cons, List.foldl_nil, ih]
    exact stepPure_bms l p

/-- C6: when the input decodes to a truthy object with truthy minutiae
and every candidate is abort-free, `match_fingerprint` returns exactly
the spec-side selection on the surviving id/confidence pairs: the
earliest pair attaining the maximum confidence among those at or above
the match threshold, and no match when no pair reaches it — a pair at
exactly the threshold qualifies, one below is dropped by the filter,
and ties go to the earlier candidate because the running best is only
replaced on strictly greater confidence. -/
theorem claim_c6_best_match (input : List Char) (templates : List Candidate)
    (kvs : List (List Char × Json))
    (hdec : decode_template input = some (Json.obj kvs))
    (htr : truthy (Json.obj kvs) = true)
    (hmv : truthy (getFieldD kvs keyMinutiae (Json.arr [])) = true)
    (hok : ∀ c ∈ templates, okCand c) :
    match_fingerprint input templates
      = bestMatchSpec (validPairs (getFieldD kvs keyMinutiae (Json.arr [])) templates) := by
  unfold match_fingerprint
  rw [hdec]
  dsimp only
  rw [if_neg (by simp [htr])]
  rw [if_neg (by simp [hmv])]
  rw [loopCands_ok (getFieldD kvs keyMinutiae (Json.arr [])) templates hok (none, 0)]
  dsimp only
  rw [foldl_pairs, fold_best]

/-- Any candidate carrying the good template never aborts. -/
theorem okCand_goodChars (sid : List Char) : okCand ⟨some sid, some goodChars⟩ := by
  unfold okCand
  intro t ht d hd _
  have ht2 : goodChars = t := Option.some.inj ht
  rw [← ht2, goodChars_dec] at hd
  exact ⟨tmplKvs, (Option.some.inj hd).symm⟩

/-- Witness for C6 at two concrete identical-template candidates. -/
theorem claim_c6_witness :
    match_fingerprint goodChars [goodCand, goodCandB]
      = bestMatchSpec (validPairs (getFieldD tmplKvs keyMinutiae (Json.arr []))
          [goodCand, goodCandB]) :=
  claim_c6_best_match goodChars [goodCand, goodCandB] tmplKvs goodChars_dec
    (by decide) (by decide)
    (fun c hc => by
      rcases List.mem_cons.mp hc with rfl | hc2
      · exact okCand_goodChars sidA
      · rcases List.mem_cons.mp hc2 with rfl | hc3
        · exact okCand_goodChars sidB
        · exact absurd hc3 (by simp))
